import Mathlib

/-!
# Linear hashing set (`ADS_set.h`)

A shallow embedding of the class template `ADS_set<Key, N>` and of its forward
iterator, followed by theorems about it.

Representation.
* A `bucket` is represented by the list of its occupied slots
  `array[0 .. bucket_curr_size - 1]`; `bucket_curr_size` is the length of that
  list.  Slots at or beyond `bucket_curr_size` are never read by the code.
* A chain (a head bucket and the buckets reached through `overflow_bucket`) is
  the list of its buckets, head first.  The empty list is a null head pointer.
* The directory `table` is the list of the entries `table[0 .. table_size - 1]`.
  `table_size` is kept as a field of its own, as in the source.
* A `bucket*` is `Option (Nat × Nat)`: directory index and position in the
  chain.  A `key_type*` is `Option (Nat × Nat × Nat)`: directory index, position
  in the chain, slot.  `none` is `nullptr`.
* `hasher{}(key)` is a parameter `hash : Key → Nat`, the bucket capacity is a
  parameter `N`, `key_equal` is equality on `Key`.
* `1 << d` and `1 << (d+1)` are `2 ^ d` and `2 ^ (d + 1)`: the model covers the
  generations for which the shift of the `int` constant is defined
  (`d + 1 < 31`); a directory beyond them holds more than `2 ^ 30` chains.
* Loops whose termination depends on the shape of the directory take a fuel
  argument and return `none` when it runs out.
* The theorems about reachable states take `1 ≤ N`: the array of a bucket has
  `N` slots, and with `N = 0` the first write of `insert_` would fall outside it.
-/

set_option linter.unusedSectionVars false

namespace LinearHashing

variable {Key : Type} [DecidableEq Key]

/-- Data members of `ADS_set`. -/
structure ADS_set (Key : Type) where
  table : List (List (List Key))
  d : Nat
  next_to_split : Nat
  table_size : Nat
  curr_size : Nat
  real_table_size : Nat
deriving DecidableEq, Repr

/-- Data members of `ADS_set::Iterator` (its `table` member is the directory of
the set the iterator is used with). -/
structure Iterator where
  table_size : Nat
  index_pos : Nat
  current_bucket : Option (Nat × Nat)
  key_pos : Option (Nat × Nat × Nat)
deriving DecidableEq, Repr

/-- Outcome of a failed dereference: the `std::runtime_error` thrown by
`operator*`, or an access through a pointer to no occupied slot. -/
inductive IterError where
  | runtime_error
  | invalid_pointer
deriving DecidableEq, Repr

/-- Embeds `bucket::bucket_isfull`. -/
def bucket_isfull (N : Nat) (b : List Key) : Bool := b.length == N

/-- Embeds `bucket::bucket_empty`. -/
def bucket_empty (b : List Key) : Bool := b.length == 0

/-- Embeds `ADS_set::h`, the address function. -/
def h (hash : Key → Nat) (s : ADS_set Key) (key : Key) : Nat :=
  let idx := hash key % 2 ^ s.d
  if idx < s.next_to_split then hash key % 2 ^ (s.d + 1) else idx

/-- Embeds `ADS_set::ADS_set (size_type d, size_type table_size)`: `table_size` chains
of one empty bucket each. -/
def ctor (d table_size : Nat) : ADS_set Key :=
  { table := List.replicate table_size [[]]
    d := d
    next_to_split := 0
    table_size := table_size
    curr_size := 0
    real_table_size := 2 ^ (d + 1) }

/-- The default-constructed set `ADS_set{}` (both constructor arguments 0). -/
def empty_set : ADS_set Key := ctor 0 0

/-- Embeds `ADS_set::size`. -/
def size (s : ADS_set Key) : Nat := s.curr_size

/-- Embeds `ADS_set::empty`. -/
def empty (s : ADS_set Key) : Bool := s.curr_size == 0

/-- Embeds `bucket::find_in_bucket`: offset of the first occupied slot equal to `key`. -/
def find_in_bucket (key : Key) : List Key → Option Nat
  | [] => none
  | a :: rest => if a = key then some 0 else (find_in_bucket key rest).map (· + 1)

/-- The `while` loop of `ADS_set::find_`, walking the chain at directory index
`idx` from the bucket at position `j`. -/
def find_walk (key : Key) (idx : Nat) :
    List (List Key) → Nat → Option (Nat × Nat) × Option (Nat × Nat × Nat)
  | [], _ => (none, none)
  | b :: overflow, j =>
    match find_in_bucket key b with
    | some x => (some (idx, j), some (idx, j, x))
    | none => find_walk key idx overflow (j + 1)

/-- Embeds `ADS_set::find_`: owning bucket and slot of `key`, or two null pointers. -/
def find_ (hash : Key → Nat) (s : ADS_set Key) (key : Key) :
    Option (Nat × Nat) × Option (Nat × Nat × Nat) :=
  let idx := h hash s key
  if s.table_size == 0 then (none, none)
  else find_walk key idx (s.table.getD idx []) 0

/-- Embeds `ADS_set::count`. -/
def count (hash : Key → Nat) (s : ADS_set Key) (key : Key) : Nat :=
  if (find_ hash s key).2.isSome then 1 else 0

/-- The chain walk and the write of `ADS_set::insert_`: go to the first bucket
that is not full or has no overflow bucket, append an overflow bucket when that
bucket is full, and store `key` in the next free slot.  The flag is
`split_signal`.  The source reads the head bucket without a null check; a chain
without a head is returned as it is. -/
def insert_chain (N : Nat) (key : Key) : List (List Key) → List (List Key) × Bool
  | [] => ([], false)
  | [b] => if bucket_isfull N b then ([b, [key]], true) else ([b ++ [key]], false)
  | b :: b' :: overflow =>
    if !bucket_isfull N b then ((b ++ [key]) :: b' :: overflow, false)
    else
      let r := insert_chain N key (b' :: overflow)
      (b :: r.1, r.2)

/-- Embeds `ADS_set::insert_` up to and including `++curr_size`, with the value of
`split_signal`.  Its first component is `insert_ (key, false)`. -/
def insert_core (hash : Key → Nat) (N : Nat) (s : ADS_set Key) (key : Key) :
    ADS_set Key × Bool :=
  let s1 : ADS_set Key :=
    if s.table_size == 0 then { s with table := [[[]]], table_size := s.table_size + 1 } else s
  let idx := h hash s1 key
  let r := insert_chain N key (s1.table.getD idx [])
  ({ s1 with table := s1.table.set idx r.1, curr_size := s1.curr_size + 1 }, r.2)

/-- Embeds `ADS_set::rehash_keys`: reinsert every key of the chain, bucket by bucket,
without splitting. -/
def rehash_keys (hash : Key → Nat) (N : Nat) : ADS_set Key → List (List Key) → ADS_set Key
  | s, [] => s
  | s, b :: overflow =>
    rehash_keys hash N (b.foldl (fun acc key => (insert_core hash N acc key).1) s) overflow

/-- Embeds `ADS_set::split`. -/
def split (hash : Key → Nat) (N : Nat) (s : ADS_set Key) : ADS_set Key :=
  let old_curr_size := s.curr_size
  let bucket_to_split := s.table.getD s.next_to_split []
  let table_size := s.table_size + 1
  let real_table_size :=
    if table_size > s.real_table_size then s.real_table_size * 2 else s.real_table_size
  let s1 : ADS_set Key :=
    { s with
      table := (s.table ++ [[[]]]).set s.next_to_split [[]]
      table_size := table_size
      real_table_size := real_table_size
      next_to_split := s.next_to_split + 1 }
  let s2 := rehash_keys hash N s1 bucket_to_split
  let s3 : ADS_set Key := { s2 with curr_size := old_curr_size }
  if s3.next_to_split ≥ 2 ^ s3.d then { s3 with d := s3.d + 1, next_to_split := 0 } else s3

/-- Embeds `ADS_set::insert_`. -/
def insert_ (hash : Key → Nat) (N : Nat) (s : ADS_set Key) (key : Key)
    (is_allowed_to_call_split : Bool) : ADS_set Key :=
  let r := insert_core hash N s key
  if is_allowed_to_call_split && r.2 then split hash N r.1 else r.1

/-- Embeds `ADS_set::end`. -/
def end_ (s : ADS_set Key) : Iterator :=
  { table_size := s.table_size, index_pos := s.table_size, current_bucket := none, key_pos := none }

/-- Embeds `Iterator::Iterator (const ADS_set*, pointer key_pos)`: `key` is the value
`*key_pos` read by the constructor. -/
def Iterator.at_key (hash : Key → Nat) (s : ADS_set Key) (key : Key)
    (key_pos : Option (Nat × Nat × Nat)) : Iterator :=
  { table_size := s.table_size
    index_pos := h hash s key
    current_bucket := (find_ hash s key).1
    key_pos := key_pos }

/-- Embeds `ADS_set::find`.  The slot found by `find_` holds a key equal to `key`, which
is the value handed to the iterator constructor as `*key_pos`. -/
def find (hash : Key → Nat) (s : ADS_set Key) (key : Key) : Iterator :=
  let find_return := find_ hash s key
  if find_return.2 = none then end_ s else Iterator.at_key hash s key find_return.2

/-- Embeds `operator==` of two iterators: identity of `key_pos`. -/
def Iterator.eq (lhs rhs : Iterator) : Bool := lhs.key_pos == rhs.key_pos

/-- Embeds `Iterator::operator*`. -/
def Iterator.deref (s : ADS_set Key) (it : Iterator) : Except IterError Key :=
  match it.key_pos with
  | none => .error .runtime_error
  | some (i, j, x) =>
    match ((s.table.getD i []).getD j [])[x]? with
    | some key => .ok key
    | none => .error .invalid_pointer

/-- Embeds `Iterator::operator->`: the guard of `operator*`, then `key_pos`
itself. -/
def Iterator.arrow (it : Iterator) : Except IterError (Nat × Nat × Nat) :=
  match it.key_pos with
  | none => .error .runtime_error
  | some p => .ok p

/-- Embeds `ADS_set::insert (const key_type&)`: the new state, the iterator and the flag. -/
def insert (hash : Key → Nat) (N : Nat) (s : ADS_set Key) (key : Key) :
    ADS_set Key × Iterator × Bool :=
  let it_on_key := find hash s key
  if Iterator.eq it_on_key (end_ s) then
    let s1 := insert_ hash N s key true
    (s1, find hash s1 key, true)
  else (s, it_on_key, false)

/-- Embeds `ADS_set::erase`: the new state and the number of removed keys.  The
loop that moves every later occupied slot one place to the left, followed by
`--bucket_curr_size`, removes slot `x` from the list of occupied slots.  The
source tests only the key pointer; `find_` returns a bucket together with every
non-null key pointer, and the remaining combinations leave the set as it is. -/
def erase (hash : Key → Nat) (s : ADS_set Key) (key : Key) : ADS_set Key × Nat :=
  match (find_ hash s key).1, (find_ hash s key).2 with
  | some (i, j), some (_, _, x) =>
    let chain := s.table.getD i []
    let containing_bucket := chain.getD j []
    ({ s with
       table := s.table.set i (chain.set j (containing_bucket.eraseIdx x))
       curr_size := s.curr_size - 1 }, 1)
  | _, _ => (s, 0)

/-- Pointer `table[i]` to the head bucket of chain `i`. -/
def head_bucket (s : ADS_set Key) (i : Nat) : Option (Nat × Nat) :=
  if (s.table.getD i []).isEmpty then none else some (i, 0)

/-- Member `overflow_bucket` of the bucket at position `j` of chain `i`. -/
def overflow_bucket (s : ADS_set Key) (i j : Nat) : Option (Nat × Nat) :=
  if j + 1 < (s.table.getD i []).length then some (i, j + 1) else none

/-- Embeds `Iterator::skip`.  One unit of fuel is used for every bucket looked at; a
null `current_bucket` on entry gives `none`. -/
def Iterator.skip (s : ADS_set Key) : Nat → Iterator → Option Iterator
  | 0, _ => none
  | fuel + 1, it =>
    match it.current_bucket with
    | none => none
    | some (i, j) =>
      if !bucket_empty ((s.table.getD i []).getD j []) then
        some { it with key_pos := some (i, j, 0) }
      else
        match overflow_bucket s i j with
        | some b => Iterator.skip s fuel { it with current_bucket := some b }
        | none =>
          if it.index_pos + 1 != it.table_size then
            Iterator.skip s fuel
              { it with
                index_pos := it.index_pos + 1
                current_bucket := head_bucket s (it.index_pos + 1) }
          else
            some { it with index_pos := it.index_pos + 1, current_bucket := none, key_pos := none }

/-- Embeds `Iterator::Iterator (const ADS_set*, bucket **index_pos)` for a non-null set
and directory position. -/
def Iterator.at_index (s : ADS_set Key) (fuel : Nat) (index_pos : Nat) : Option Iterator :=
  let it : Iterator :=
    { table_size := s.table_size, index_pos := index_pos, current_bucket := none, key_pos := none }
  if index_pos == s.table_size then some it
  else Iterator.skip s fuel { it with current_bucket := head_bucket s index_pos }

/-- Embeds `ADS_set::begin`. -/
def begin (s : ADS_set Key) (fuel : Nat) : Option Iterator :=
  if s.curr_size == 0 then some (end_ s) else Iterator.at_index s fuel 0

/-- Embeds `Iterator::operator++` (prefix).  Incrementing a null `key_pos` or reading a
null `current_bucket` gives `none`. -/
def Iterator.incr (s : ADS_set Key) (fuel : Nat) (it : Iterator) : Option Iterator :=
  match it.key_pos, it.current_bucket with
  | some (i, j, x), some (ci, cj) =>
    let key_pos := (i, j, x + 1)
    if key_pos = (ci, cj, ((s.table.getD ci []).getD cj []).length) then
      match overflow_bucket s ci cj with
      | some b => Iterator.skip s fuel { it with key_pos := some key_pos, current_bucket := some b }
      | none =>
        if it.index_pos + 1 == it.table_size then
          some { it with index_pos := it.index_pos + 1, current_bucket := none, key_pos := none }
        else
          Iterator.skip s fuel
            { it with
              key_pos := some key_pos
              index_pos := it.index_pos + 1
              current_bucket := head_bucket s (it.index_pos + 1) }
    else some { it with key_pos := some key_pos }
  | _, _ => none

/-- The loop `for (it = ...; it != end(); ++it)` collecting `*it`: `skip_fuel` is
handed to every `operator++`, the other number bounds the number of rounds. -/
def Iterator.collect (s : ADS_set Key) (skip_fuel : Nat) : Nat → Iterator → Option (List Key)
  | 0, _ => none
  | fuel + 1, it =>
    if Iterator.eq it (end_ s) then some []
    else
      match Iterator.deref s it with
      | .error _ => none
      | .ok key =>
        match Iterator.incr s skip_fuel it with
        | none => none
        | some it' => (Iterator.collect s skip_fuel fuel it').map (key :: ·)

/-- The iterator after `n` applications of `operator++`. -/
def Iterator.advance (s : ADS_set Key) (skip_fuel : Nat) : Nat → Iterator → Option Iterator
  | 0, it => some it
  | n + 1, it =>
    match Iterator.incr s skip_fuel it with
    | none => none
    | some it' => Iterator.advance s skip_fuel n it'

/-- The keys visited from `begin()` by `operator++` until the iterator equals
`end()`. -/
def to_list (s : ADS_set Key) (fuel : Nat) : Option (List Key) :=
  match begin s fuel with
  | none => none
  | some it => Iterator.collect s fuel fuel it

/-- The loop of `operator==`: `for (const auto &k : rhs) if (!lhs.count(k)) return false;`. -/
def eq_loop (hash : Key → Nat) (lhs rhs : ADS_set Key) (skip_fuel : Nat) :
    Nat → Iterator → Option Bool
  | 0, _ => none
  | fuel + 1, it =>
    if Iterator.eq it (end_ rhs) then some true
    else
      match Iterator.deref rhs it with
      | .error _ => none
      | .ok k =>
        if count hash lhs k == 0 then some false
        else
          match Iterator.incr rhs skip_fuel it with
          | none => none
          | some it' => eq_loop hash lhs rhs skip_fuel fuel it'

/-- Embeds `operator== (const ADS_set&, const ADS_set&)`. -/
def op_eq (hash : Key → Nat) (lhs rhs : ADS_set Key) (fuel : Nat) : Option Bool :=
  if lhs.curr_size != rhs.curr_size then some false
  else
    match begin rhs fuel with
    | none => none
    | some it => eq_loop hash lhs rhs fuel fuel it

/-- The loop of the copy constructor: `for (const auto &k : other) insert_(k, false);`. -/
def copy_loop (hash : Key → Nat) (N : Nat) (other : ADS_set Key) (skip_fuel : Nat) :
    Nat → Iterator → ADS_set Key → Option (ADS_set Key)
  | 0, _, _ => none
  | fuel + 1, it, this =>
    if Iterator.eq it (end_ other) then some this
    else
      match Iterator.deref other it with
      | .error _ => none
      | .ok k =>
        match Iterator.incr other skip_fuel it with
        | none => none
        | some it' => copy_loop hash N other skip_fuel fuel it' (insert_ hash N this k false)

/-- Embeds `ADS_set::ADS_set (const ADS_set &other)`. -/
def copy_ctor (hash : Key → Nat) (N : Nat) (other : ADS_set Key) (fuel : Nat) :
    Option (ADS_set Key) :=
  let this : ADS_set Key :=
    { (ctor other.d other.table_size : ADS_set Key) with next_to_split := other.next_to_split }
  match begin other fuel with
  | none => none
  | some it => copy_loop hash N other fuel fuel it this

/-- Embeds `ADS_set::insert (InputIt first, InputIt last)` over the keys of a sequence. -/
def insert_range (hash : Key → Nat) (N : Nat) (s : ADS_set Key) (keys : List Key) : ADS_set Key :=
  keys.foldl (fun acc k => if count hash acc k == 0 then insert_ hash N acc k true else acc) s

/-- Embeds `ADS_set::ADS_set (std::initializer_list<key_type> ilist)`. -/
def ctor_ilist (hash : Key → Nat) (N : Nat) (ilist : List Key) : ADS_set Key :=
  insert_range hash N empty_set ilist

/-- Fuel that suffices for every loop over the set: one unit per bucket, one per
key, and two more. -/
def fuel_bound (s : ADS_set Key) : Nat :=
  s.table.flatten.length + s.table.flatten.flatten.length + 2

/-- All keys held in occupied slots, in directory order, chain order, slot order. -/
def keys (s : ADS_set Key) : List Key := s.table.flatten.flatten

/-- Shape of a directory that has at least one chain: the list of entries has
`table_size` elements, the split state fits the directory, no head pointer is
null, no bucket exceeds its capacity, and every stored key sits in the chain
that `h` sends it to. -/
structure WF (hash : Key → Nat) (N : Nat) (s : ADS_set Key) : Prop where
  len : s.table.length = s.table_size
  size_eq : s.table_size = 2 ^ s.d + s.next_to_split
  nts_le : s.next_to_split ≤ 2 ^ s.d
  chain_ne : ∀ c ∈ s.table, c ≠ []
  cap : ∀ c ∈ s.table, ∀ b ∈ c, b.length ≤ N
  placed : ∀ i, ∀ k ∈ (s.table.getD i []).flatten, h hash s k = i

/-- Invariant of the states of a set between two public calls: either nothing
has been inserted yet (no chain exists), or the directory is well shaped with
the split pointer inside the current round; no key is stored twice and
`curr_size` counts the stored keys. -/
structure Inv (hash : Key → Nat) (N : Nat) (s : ADS_set Key) : Prop where
  shape : (s.table = [] ∧ s.table_size = 0 ∧ s.d = 0 ∧ s.next_to_split = 0) ∨
    (WF hash N s ∧ s.next_to_split < 2 ^ s.d)
  nodup : (keys s).Nodup
  card : s.curr_size = (keys s).length

/-- States reachable from the default-constructed set by calls of the public
`insert (const key_type&)` and `erase`. -/
inductive Reachable (hash : Key → Nat) (N : Nat) : ADS_set Key → Prop where
  | init : Reachable hash N empty_set
  | step_insert {s : ADS_set Key} (key : Key) :
      Reachable hash N s → Reachable hash N (insert hash N s key).1
  | step_erase {s : ADS_set Key} (key : Key) :
      Reachable hash N s → Reachable hash N (erase hash s key).1

/-- A public mutating call. -/
inductive Op (Key : Type) where
  | insert (key : Key)
  | erase (key : Key)
deriving DecidableEq, Repr

/-- Effect of one call on the set. -/
def apply_op (hash : Key → Nat) (N : Nat) (s : ADS_set Key) : Op Key → ADS_set Key
  | .insert key => (insert hash N s key).1
  | .erase key => (erase hash s key).1

/-- The set obtained from the default-constructed set by a sequence of calls. -/
def run (hash : Key → Nat) (N : Nat) (ops : List (Op Key)) : ADS_set Key :=
  ops.foldl (apply_op hash N) empty_set

/-- Effect of one call on a mathematical set of keys (specification side). -/
def model_op (m : Finset Key) : Op Key → Finset Key
  | .insert key => Insert.insert key m
  | .erase key => m.erase key

/-- The mathematical set obtained from the empty set by the same insertions and
removals (specification side). -/
def model (ops : List (Op Key)) : Finset Key :=
  ops.foldl model_op ∅

/-- The state of `split` when it calls `rehash_keys`: the directory has its new
last chain, the chain at the split pointer is replaced by an empty bucket and
the split pointer is advanced. -/
def split_start (s : ADS_set Key) : ADS_set Key :=
  { s with
    table := (s.table ++ [[[]]]).set s.next_to_split [[]]
    table_size := s.table_size + 1
    real_table_size :=
      if s.table_size + 1 > s.real_table_size then s.real_table_size * 2 else s.real_table_size
    next_to_split := s.next_to_split + 1 }

/-- The statements of `split` after `rehash_keys` has returned: `curr_size` is
restored and a completed round starts the next generation. -/
def split_finish (old_curr_size : Nat) (s2 : ADS_set Key) : ADS_set Key :=
  let s3 : ADS_set Key := { s2 with curr_size := old_curr_size }
  if s3.next_to_split ≥ 2 ^ s3.d then { s3 with d := s3.d + 1, next_to_split := 0 } else s3

/-- The iterator `it` over `s` stands on the first key of `rest`, the keys not
yet visited, or it is the end iterator and `rest` is empty. -/
def IterAt (s : ADS_set Key) (it : Iterator) (rest : List Key) : Prop :=
  (it = end_ s ∧ rest = []) ∨
    ∃ (pre : List (List (List Key))) (cpre : List (List Key)) (bpre : List Key) (k : Key)
      (bpost : List Key) (cpost : List (List Key)) (post : List (List (List Key))),
      s.table = pre ++ (cpre ++ (bpre ++ k :: bpost) :: cpost) :: post ∧
      it = { table_size := s.table_size
             index_pos := pre.length
             current_bucket := some (pre.length, cpre.length)
             key_pos := some (pre.length, cpre.length, bpre.length) } ∧
      rest = k :: bpost ++ cpost.flatten ++ post.flatten.flatten

/-- Embeds `ADS_set::swap`: the six data members of the two sets are exchanged;
the pair is the set itself and `other` after the call. -/
def swap (self other : ADS_set Key) : ADS_set Key × ADS_set Key :=
  ({ table := other.table
     d := other.d
     next_to_split := other.next_to_split
     table_size := other.table_size
     curr_size := other.curr_size
     real_table_size := other.real_table_size },
   { table := self.table
     d := self.d
     next_to_split := self.next_to_split
     table_size := self.table_size
     curr_size := self.curr_size
     real_table_size := self.real_table_size })

/-- Embeds `ADS_set::clear`: swap with a default-constructed temporary, which is
then destroyed. -/
def clear (s : ADS_set Key) : ADS_set Key :=
  (swap s (empty_set : ADS_set Key)).1

/-- States reachable from the default-constructed set by calls of the public
`insert (const key_type&)`, `erase` and `clear`. -/
inductive ReachableC (hash : Key → Nat) (N : Nat) : ADS_set Key → Prop where
  | init : ReachableC hash N empty_set
  | step_insert {s : ADS_set Key} (key : Key) :
      ReachableC hash N s → ReachableC hash N (insert hash N s key).1
  | step_erase {s : ADS_set Key} (key : Key) :
      ReachableC hash N s → ReachableC hash N (erase hash s key).1
  | step_clear {s : ADS_set Key} :
      ReachableC hash N s → ReachableC hash N (clear s)

/-- The bucket and the slot that the chain walk of `ADS_set::insert_` ends on:
the position in the chain of `last_bucket` when the key is written, and the
value of `last_bucket->bucket_curr_size` at that moment.  It follows the same
statements as `insert_chain`. -/
def insert_place (N : Nat) : List (List Key) → Nat × Nat
  | [] => (0, 0)
  | [b] => if bucket_isfull N b then (1, 0) else (0, b.length)
  | b :: b' :: overflow =>
    if !bucket_isfull N b then (0, b.length)
    else
      let r := insert_place N (b' :: overflow)
      (r.1 + 1, r.2)

/-- The slot `last_bucket->array + last_bucket->bucket_curr_size` that
`ADS_set::insert_` writes `key` to, as a key pointer. -/
def insert_target (hash : Key → Nat) (N : Nat) (s : ADS_set Key) (key : Key) :
    Nat × Nat × Nat :=
  let s1 : ADS_set Key :=
    if s.table_size == 0 then { s with table := [[[]]], table_size := s.table_size + 1 } else s
  let idx := h hash s1 key
  let p := insert_place N (s1.table.getD idx [])
  (idx, p.1, p.2)

/-! ## The address function -/

theorem mod_two_pow_succ (x d : Nat) :
    x % 2 ^ (d + 1) = x % 2 ^ d ∨ x % 2 ^ (d + 1) = x % 2 ^ d + 2 ^ d := by
  have e : x % 2 ^ (d + 1) = x % 2 ^ d + 2 ^ d * (x / 2 ^ d % 2) := by
    rw [pow_succ, Nat.mod_mul]
  rcases Nat.mod_two_eq_zero_or_one (x / 2 ^ d) with h0 | h1
  · left; rw [e, h0]; simp
  · right; rw [e, h1]; simp

theorem h_lt (hash : Key → Nat) (s : ADS_set Key) (k : Key)
    (hsz : s.table_size = 2 ^ s.d + s.next_to_split) : h hash s k < s.table_size := by
  have hpos : hash k % 2 ^ s.d < 2 ^ s.d := Nat.mod_lt _ (by positivity)
  unfold h
  simp only
  split_ifs with hlt
  · rcases mod_two_pow_succ (hash k) s.d with e | e <;> omega
  · omega

theorem h_congr (hash : Key → Nat) {s s' : ADS_set Key} (hd : s'.d = s.d)
    (hn : s'.next_to_split = s.next_to_split) (k : Key) : h hash s' k = h hash s k := by
  unfold h; rw [hd, hn]

theorem h_succ_nts (hash : Key → Nat) (s s' : ADS_set Key) (hd : s'.d = s.d)
    (hn : s'.next_to_split = s.next_to_split + 1) (k : Key)
    (hk : h hash s k ≠ s.next_to_split) : h hash s' k = h hash s k := by
  unfold h at hk ⊢
  rw [hd, hn]
  simp only at hk ⊢
  split_ifs at hk ⊢ <;> omega

theorem h_wrap (hash : Key → Nat) (s s' : ADS_set Key) (hd : s'.d = s.d + 1)
    (hn : s'.next_to_split = 0) (hfull : s.next_to_split = 2 ^ s.d) (k : Key) :
    h hash s' k = h hash s k := by
  have hpos : hash k % 2 ^ s.d < 2 ^ s.d := Nat.mod_lt _ (by positivity)
  unfold h
  rw [hd, hn, hfull]
  simp only
  rw [if_pos hpos]
  simp

/-! ## Lists of chains -/

theorem flatten_set_perm {t : List (List (List Key))} {i : Nat} (hi : i < t.length)
    {c' : List (List Key)} {k : Key} (hp : c'.flatten.Perm (k :: (t.getD i []).flatten)) :
    (t.set i c').flatten.flatten.Perm (k :: t.flatten.flatten) := by
  induction t generalizing i with
  | nil => simp at hi
  | cons c t ih =>
    cases i with
    | zero =>
      simp only [List.set_cons_zero, List.flatten_cons, List.flatten_append]
      simp only [List.getD_cons_zero] at hp
      exact (hp.append_right _)
    | succ i =>
      simp only [List.set_cons_succ, List.flatten_cons, List.flatten_append]
      simp only [List.getD_cons_succ] at hp
      have := ih (Nat.lt_of_succ_lt_succ hi) hp
      exact (this.append_left _).trans List.perm_middle

theorem flatten_set_empty_perm {t : List (List (List Key))} {i : Nat} (hi : i < t.length) :
    t.flatten.flatten.Perm ((t.getD i []).flatten ++ (t.set i [[]]).flatten.flatten) := by
  induction t generalizing i with
  | nil => simp at hi
  | cons c t ih =>
    cases i with
    | zero => simp
    | succ i =>
      simp only [List.set_cons_succ, List.flatten_cons, List.flatten_append, List.getD_cons_succ]
      have := ih (Nat.lt_of_succ_lt_succ hi)
      refine (this.append_left _).trans ?_
      rw [← List.append_assoc, ← List.append_assoc]
      exact List.perm_append_comm.append_right _

theorem getD_set_ne {α : Type} (t : List α) (i j : Nat) (a dflt : α) (hne : i ≠ j) :
    (t.set i a).getD j dflt = t.getD j dflt := by
  simp [List.getD_eq_getElem?_getD, List.getElem?_set, hne]

theorem getD_set_eq {α : Type} (t : List α) (i : Nat) (a dflt : α) (hi : i < t.length) :
    (t.set i a).getD i dflt = a := by
  simp [List.getD_eq_getElem?_getD, List.getElem?_set, hi]

theorem getD_mem {α : Type} (t : List α) (i : Nat) (dflt : α) (hi : i < t.length) :
    t.getD i dflt ∈ t := by
  rw [List.getD_eq_getElem _ _ hi]; exact List.getElem_mem hi

theorem mem_set_cases {α : Type} {t : List α} {i : Nat} {a x : α} (hx : x ∈ t.set i a) :
    x = a ∨ x ∈ t := by
  rcases List.mem_or_eq_of_mem_set hx with h | h
  · exact Or.inr h
  · exact Or.inl h

/-! ## `insert_chain` -/

theorem insert_chain_single_full (N : Nat) (k : Key) (b : List Key) (hfull : b.length = N) :
    insert_chain N k [b] = ([b, [k]], true) := by
  simp [insert_chain, bucket_isfull, hfull]

theorem insert_chain_single_free (N : Nat) (k : Key) (b : List Key) (hfull : b.length ≠ N) :
    insert_chain N k [b] = ([b ++ [k]], false) := by
  simp [insert_chain, bucket_isfull, hfull]

theorem insert_chain_cons_full (N : Nat) (k : Key) (b b' : List Key) (o : List (List Key))
    (hfull : b.length = N) :
    insert_chain N k (b :: b' :: o) =
      (b :: (insert_chain N k (b' :: o)).1, (insert_chain N k (b' :: o)).2) := by
  simp [insert_chain, bucket_isfull, hfull]

theorem insert_chain_cons_free (N : Nat) (k : Key) (b b' : List Key) (o : List (List Key))
    (hfull : b.length ≠ N) :
    insert_chain N k (b :: b' :: o) = ((b ++ [k]) :: b' :: o, false) := by
  simp [insert_chain, bucket_isfull, hfull]

theorem insert_chain_spec (N : Nat) (hN : 1 ≤ N) (k : Key) (c : List (List Key))
    (hne : c ≠ []) (hcap : ∀ b ∈ c, b.length ≤ N) :
    (insert_chain N k c).1 ≠ [] ∧ (∀ b ∈ (insert_chain N k c).1, b.length ≤ N) ∧
      (insert_chain N k c).1.flatten.Perm (k :: c.flatten) := by
  induction c with
  | nil => exact absurd rfl hne
  | cons b rest ih =>
    have hb : b.length ≤ N := hcap b (by simp)
    cases rest with
    | nil =>
      by_cases hfull : b.length = N
      · rw [insert_chain_single_full N k b hfull]
        refine ⟨by simp, ?_, ?_⟩
        · intro x hx
          simp only [List.mem_cons, List.mem_singleton, List.not_mem_nil, or_false] at hx
          rcases hx with e | e
          · rw [e]; exact hb
          · rw [e]; simpa using hN
        · simp
      · rw [insert_chain_single_free N k b hfull]
        refine ⟨by simp, ?_, ?_⟩
        · intro x hx
          simp only [List.mem_singleton] at hx
          rw [hx, List.length_append, List.length_singleton]; omega
        · simp
    | cons b' o =>
      by_cases hfull : b.length = N
      · have ih' := ih (by simp) (fun x hx => hcap x (List.mem_cons_of_mem _ hx))
        rw [insert_chain_cons_full N k b b' o hfull]
        refine ⟨by simp, ?_, ?_⟩
        · intro x hx
          rcases List.mem_cons.mp hx with e | e
          · rw [e]; omega
          · exact ih'.2.1 x e
        · simp only [List.flatten_cons]
          exact (ih'.2.2.append_left b).trans List.perm_middle
      · rw [insert_chain_cons_free N k b b' o hfull]
        refine ⟨by simp, ?_, ?_⟩
        · intro x hx
          rcases List.mem_cons.mp hx with e | e
          · rw [e, List.length_append, List.length_singleton]; omega
          · exact hcap x (List.mem_cons_of_mem _ e)
        · simp only [List.flatten_cons, List.append_assoc]
          simp

/-! ## `insert_core` on a well-shaped directory -/

theorem WF.table_size_ne {hash : Key → Nat} {N : Nat} {s : ADS_set Key} (w : WF hash N s) :
    s.table_size ≠ 0 := by
  have : 0 < 2 ^ s.d := by positivity
  have := w.size_eq
  omega

theorem WF.h_lt_length {hash : Key → Nat} {N : Nat} {s : ADS_set Key} (w : WF hash N s)
    (k : Key) : h hash s k < s.table.length := by
  rw [w.len]; exact h_lt hash s k w.size_eq

theorem insert_core_of_ne (hash : Key → Nat) (N : Nat) (s : ADS_set Key) (k : Key)
    (hts : s.table_size ≠ 0) :
    insert_core hash N s k =
      ({ s with
         table := s.table.set (h hash s k) (insert_chain N k (s.table.getD (h hash s k) [])).1
         curr_size := s.curr_size + 1 },
       (insert_chain N k (s.table.getD (h hash s k) [])).2) := by
  simp [insert_core, hts]

theorem insert_core_of_zero (hash : Key → Nat) (N : Nat) (s : ADS_set Key) (k : Key)
    (hts : s.table_size = 0) :
    insert_core hash N s k =
      insert_core hash N { s with table := [[[]]], table_size := 1 } k := by
  simp [insert_core, hts]

theorem insert_core_fields (hash : Key → Nat) (N : Nat) (s : ADS_set Key) (k : Key)
    (hts : s.table_size ≠ 0) :
    (insert_core hash N s k).1.d = s.d ∧
      (insert_core hash N s k).1.next_to_split = s.next_to_split ∧
      (insert_core hash N s k).1.table_size = s.table_size ∧
      (insert_core hash N s k).1.real_table_size = s.real_table_size ∧
      (insert_core hash N s k).1.curr_size = s.curr_size + 1 := by
  rw [insert_core_of_ne hash N s k hts]
  exact ⟨rfl, rfl, rfl, rfl, rfl⟩

theorem insert_core_chain_ne (hash : Key → Nat) (N : Nat) (s : ADS_set Key) (k : Key)
    (hts : s.table_size ≠ 0) (i : Nat) (hi : i ≠ h hash s k) :
    (insert_core hash N s k).1.table.getD i [] = s.table.getD i [] := by
  rw [insert_core_of_ne hash N s k hts]
  exact getD_set_ne _ _ _ _ _ (Ne.symm hi)

theorem insert_core_chain_eq (hash : Key → Nat) (N : Nat) (hN : 1 ≤ N) (s : ADS_set Key)
    (k : Key) (w : WF hash N s) :
    ((insert_core hash N s k).1.table.getD (h hash s k) []).flatten.Perm
      (k :: (s.table.getD (h hash s k) []).flatten) := by
  rw [insert_core_of_ne hash N s k w.table_size_ne]
  have hi := w.h_lt_length k
  have hm := getD_mem s.table (h hash s k) [] hi
  simp only
  rw [getD_set_eq _ _ _ _ hi]
  exact (insert_chain_spec N hN k _ (w.chain_ne _ hm) (w.cap _ hm)).2.2

theorem insert_core_keys (hash : Key → Nat) (N : Nat) (hN : 1 ≤ N) (s : ADS_set Key)
    (k : Key) (w : WF hash N s) :
    (keys (insert_core hash N s k).1).Perm (k :: keys s) := by
  rw [insert_core_of_ne hash N s k w.table_size_ne]
  have hi := w.h_lt_length k
  have hm := getD_mem s.table (h hash s k) [] hi
  exact flatten_set_perm hi (insert_chain_spec N hN k _ (w.chain_ne _ hm) (w.cap _ hm)).2.2

theorem insert_core_wf (hash : Key → Nat) (N : Nat) (hN : 1 ≤ N) (s : ADS_set Key)
    (k : Key) (w : WF hash N s) : WF hash N (insert_core hash N s k).1 := by
  have hi := w.h_lt_length k
  have hm := getD_mem s.table (h hash s k) [] hi
  have hc := insert_chain_spec N hN k _ (w.chain_ne _ hm) (w.cap _ hm)
  have hchain := insert_core_chain_eq hash N hN s k w
  have hother := insert_core_chain_ne hash N s k w.table_size_ne
  have hh : ∀ x, h hash (insert_core hash N s k).1 x = h hash s x := by
    intro x
    have f := insert_core_fields hash N s k w.table_size_ne
    exact h_congr hash f.1 f.2.1 x
  refine ⟨?_, ?_, ?_, ?_, ?_, ?_⟩
  · rw [insert_core_of_ne hash N s k w.table_size_ne]; simpa using w.len
  · rw [insert_core_of_ne hash N s k w.table_size_ne]; exact w.size_eq
  · rw [insert_core_of_ne hash N s k w.table_size_ne]; exact w.nts_le
  · rw [insert_core_of_ne hash N s k w.table_size_ne]
    intro c hcm
    rcases mem_set_cases hcm with e | e
    · rw [e]; exact hc.1
    · exact w.chain_ne c e
  · rw [insert_core_of_ne hash N s k w.table_size_ne]
    intro c hcm
    rcases mem_set_cases hcm with e | e
    · rw [e]; exact hc.2.1
    · exact w.cap c e
  · intro i x hx
    rw [hh]
    by_cases hik : i = h hash s k
    · subst hik
      have := hchain.subset hx
      rcases List.mem_cons.mp this with e | e
      · rw [e]
      · exact w.placed _ x e
    · rw [hother i hik] at hx
      exact w.placed i x hx

/-! ## Reinserting a list of keys without splitting -/

theorem foldl_insert_core (hash : Key → Nat) (N : Nat) (hN : 1 ≤ N) (l : List Key)
    (s : ADS_set Key) (w : WF hash N s) :
    WF hash N (l.foldl (fun acc key => (insert_core hash N acc key).1) s) ∧
      (l.foldl (fun acc key => (insert_core hash N acc key).1) s).d = s.d ∧
      (l.foldl (fun acc key => (insert_core hash N acc key).1) s).next_to_split
        = s.next_to_split ∧
      (l.foldl (fun acc key => (insert_core hash N acc key).1) s).table_size = s.table_size ∧
      (l.foldl (fun acc key => (insert_core hash N acc key).1) s).real_table_size
        = s.real_table_size ∧
      (l.foldl (fun acc key => (insert_core hash N acc key).1) s).curr_size
        = s.curr_size + l.length ∧
      (keys (l.foldl (fun acc key => (insert_core hash N acc key).1) s)).Perm (l ++ keys s) := by
  induction l generalizing s with
  | nil => simp [w]
  | cons k l ih =>
    have w' := insert_core_wf hash N hN s k w
    have f := insert_core_fields hash N s k w.table_size_ne
    have p := insert_core_keys hash N hN s k w
    have r := ih _ w'
    simp only [List.foldl_cons]
    refine ⟨r.1, r.2.1.trans f.1, r.2.2.1.trans f.2.1, r.2.2.2.1.trans f.2.2.1,
      r.2.2.2.2.1.trans f.2.2.2.1, ?_, ?_⟩
    · rw [r.2.2.2.2.2.1, f.2.2.2.2, List.length_cons]; omega
    · refine r.2.2.2.2.2.2.trans ?_
      refine (p.append_left l).trans ?_
      simp

theorem rehash_keys_eq_foldl (hash : Key → Nat) (N : Nat) (c : List (List Key))
    (s : ADS_set Key) :
    rehash_keys hash N s c =
      c.flatten.foldl (fun acc key => (insert_core hash N acc key).1) s := by
  induction c generalizing s with
  | nil => rfl
  | cons b o ih => simp only [rehash_keys, List.flatten_cons, List.foldl_append, ih]

theorem insert_false_eq (hash : Key → Nat) (N : Nat) (s : ADS_set Key) (k : Key) :
    insert_ hash N s k false = (insert_core hash N s k).1 := by
  simp [insert_]

/-! ## `split` -/

theorem split_eq (hash : Key → Nat) (N : Nat) (s : ADS_set Key) :
    split hash N s =
      split_finish s.curr_size
        (rehash_keys hash N (split_start s) (s.table.getD s.next_to_split [])) := rfl

theorem split_start_wf (hash : Key → Nat) (N : Nat) (s : ADS_set Key)
    (w : WF hash N s) (hlt : s.next_to_split < 2 ^ s.d) :
    WF hash N (split_start s) := by
  unfold split_start
  have hlen := w.len
  have hsz := w.size_eq
  refine ⟨?_, ?_, ?_, ?_, ?_, ?_⟩
  · simp [hlen]
  · simp only; omega
  · simp only; omega
  · intro c hc
    simp only at hc
    rcases mem_set_cases hc with e | e
    · rw [e]; simp
    · rcases List.mem_append.mp e with e | e
      · exact w.chain_ne c e
      · simp only [List.mem_singleton] at e
        rw [e]; simp
  · intro c hc b hb
    simp only at hc
    rcases mem_set_cases hc with e | e
    · rw [e] at hb; simp only [List.mem_singleton] at hb; rw [hb]; simp
    · rcases List.mem_append.mp e with e | e
      · exact w.cap c e b hb
      · simp only [List.mem_singleton] at e
        rw [e] at hb; simp only [List.mem_singleton] at hb; rw [hb]; simp
  · intro i x hx
    simp only at hx
    by_cases hi : i = s.next_to_split
    · subst hi
      rw [getD_set_eq _ _ _ _ (by simp; omega)] at hx
      simp at hx
    · rw [getD_set_ne _ _ _ _ _ (Ne.symm hi)] at hx
      by_cases hi2 : i < s.table.length
      · rw [List.getD_eq_getElem?_getD, List.getElem?_append_left hi2,
          ← List.getD_eq_getElem?_getD] at hx
        have hp := w.placed i x hx
        rw [← hp]
        exact h_succ_nts hash s (split_start s) rfl rfl x (by rw [hp]; exact hi)
      · rw [List.getD_eq_getElem?_getD, List.getElem?_append_right (by omega)] at hx
        rcases Nat.eq_zero_or_pos (i - s.table.length) with e | e
        · rw [e] at hx; simp at hx
        · rw [List.getElem?_eq_none (by simp; omega)] at hx; simp at hx

theorem split_start_keys (s : ADS_set Key) (hi : s.next_to_split < s.table.length) :
    (keys s).Perm ((s.table.getD s.next_to_split []).flatten ++
      keys (split_start s)) := by
  have h1 : s.next_to_split < (s.table ++ [[[]]]).length := by simp; omega
  have h2 := flatten_set_empty_perm h1
  have h3 : (s.table ++ [[[]]]).getD s.next_to_split [] = s.table.getD s.next_to_split [] := by
    rw [List.getD_eq_getElem?_getD, List.getElem?_append_left hi, ← List.getD_eq_getElem?_getD]
  rw [h3] at h2
  simpa [keys, split_start] using h2

theorem split_finish_spec (hash : Key → Nat) (N : Nat) (old : Nat) (s2 : ADS_set Key)
    (w2 : WF hash N s2) :
    WF hash N (split_finish old s2) ∧
      (split_finish old s2).next_to_split < 2 ^ (split_finish old s2).d ∧
      keys (split_finish old s2) = keys s2 ∧
      (split_finish old s2).curr_size = old ∧
      (split_finish old s2).table_size = s2.table_size ∧
      (split_finish old s2).table = s2.table := by
  have hle := w2.nts_le
  have hsz := w2.size_eq
  unfold split_finish
  simp only
  by_cases hge : s2.next_to_split ≥ 2 ^ s2.d
  · rw [if_pos hge]
    refine ⟨⟨w2.len, ?_, ?_, w2.chain_ne, w2.cap, ?_⟩, ?_, rfl, rfl, rfl, rfl⟩
    · simp only; rw [pow_succ]; omega
    · simp
    · intro i x hx
      have := w2.placed i x hx
      rw [← this]
      refine h_wrap hash s2 _ rfl rfl ?_ x
      omega
    · simp only; positivity
  · rw [if_neg hge]
    refine ⟨⟨w2.len, w2.size_eq, w2.nts_le, w2.chain_ne, w2.cap, w2.placed⟩, ?_, rfl, rfl,
      rfl, rfl⟩
    simp only; omega

theorem split_spec (hash : Key → Nat) (N : Nat) (hN : 1 ≤ N) (s : ADS_set Key)
    (w : WF hash N s) (hlt : s.next_to_split < 2 ^ s.d) :
    WF hash N (split hash N s) ∧
      (split hash N s).next_to_split < 2 ^ (split hash N s).d ∧
      (keys (split hash N s)).Perm (keys s) ∧
      (split hash N s).curr_size = s.curr_size ∧
      (split hash N s).table_size = s.table_size + 1 := by
  have hsz := w.size_eq
  have hi : s.next_to_split < s.table.length := by rw [w.len]; omega
  have w1 := split_start_wf hash N s w hlt
  have k1 := split_start_keys s hi
  obtain ⟨w2, -, -, hts, -, -, hk⟩ :=
    foldl_insert_core hash N hN (s.table.getD s.next_to_split []).flatten _ w1
  rw [← rehash_keys_eq_foldl] at w2 hts hk
  obtain ⟨w3, hn3, hk3, hc3, hts3, -⟩ := split_finish_spec hash N s.curr_size _ w2
  rw [split_eq]
  refine ⟨w3, hn3, ?_, hc3, ?_⟩
  · rw [hk3]; exact hk.trans k1.symm
  · rw [hts3, hts]; rfl

/-! ## Lookup -/

theorem find_in_bucket_none (k : Key) (b : List Key) :
    find_in_bucket k b = none ↔ k ∉ b := by
  induction b with
  | nil => simp [find_in_bucket]
  | cons a rest ih =>
    by_cases e : a = k
    · simp [find_in_bucket, e]
    · have e' : ¬ k = a := fun x => e x.symm
      simp [find_in_bucket, e, e', ih]

theorem find_in_bucket_some (k : Key) (b : List Key) (x : Nat)
    (hx : find_in_bucket k b = some x) : b[x]? = some k := by
  induction b generalizing x with
  | nil => simp [find_in_bucket] at hx
  | cons a rest ih =>
    by_cases e : a = k
    · simp [find_in_bucket, e] at hx
      subst hx; simp [e]
    · simp only [find_in_bucket, e, if_false, Option.map_eq_some'] at hx
      obtain ⟨y, hy, rfl⟩ := hx
      simpa using ih y hy

theorem find_walk_snd_none (k : Key) (idx : Nat) (c : List (List Key)) (j : Nat) :
    (find_walk k idx c j).2 = none ↔ k ∉ c.flatten := by
  induction c generalizing j with
  | nil => simp [find_walk]
  | cons b o ih =>
    unfold find_walk
    cases hb : find_in_bucket k b with
    | none =>
      have := (find_in_bucket_none k b).mp hb
      simp [ih, this]
    | some x =>
      have : k ∈ b := by
        by_contra hc
        rw [(find_in_bucket_none k b).mpr hc] at hb
        exact Option.noConfusion hb
      simp [this]

theorem find_walk_some (k : Key) (idx : Nat) (c : List (List Key)) (j : Nat)
    (r : Nat × Nat × Nat) (hr : (find_walk k idx c j).2 = some r) :
    ∃ m x, r = (idx, j + m, x) ∧ m < c.length ∧ (c.getD m [])[x]? = some k ∧
      (find_walk k idx c j).1 = some (idx, j + m) := by
  induction c generalizing j with
  | nil => simp [find_walk] at hr
  | cons b o ih =>
    unfold find_walk at hr ⊢
    cases hb : find_in_bucket k b with
    | none =>
      rw [hb] at hr
      simp only at hr ⊢
      obtain ⟨m, x, e1, e2, e3, e4⟩ := ih (j + 1) hr
      refine ⟨m + 1, x, ?_, by simpa using e2, by simpa using e3, ?_⟩
      · rw [e1]; congr 2; omega
      · rw [e4]; congr 2; omega
    | some x =>
      rw [hb] at hr
      simp only [Option.some.injEq] at hr ⊢
      exact ⟨0, x, hr.symm, by simp, by simpa using find_in_bucket_some k b x hb, rfl⟩

theorem find_walk_fst_none (k : Key) (idx : Nat) (c : List (List Key)) (j : Nat)
    (hr : (find_walk k idx c j).2 = none) : (find_walk k idx c j).1 = none := by
  induction c generalizing j with
  | nil => simp [find_walk]
  | cons b o ih =>
    unfold find_walk at hr ⊢
    cases hb : find_in_bucket k b with
    | none => rw [hb] at hr; exact ih (j + 1) hr
    | some x => rw [hb] at hr; simp at hr

theorem find__of_zero (hash : Key → Nat) (s : ADS_set Key) (k : Key) (h0 : s.table_size = 0) :
    find_ hash s k = (none, none) := by
  simp [find_, h0]

theorem find__of_ne (hash : Key → Nat) (s : ADS_set Key) (k : Key) (h0 : s.table_size ≠ 0) :
    find_ hash s k = find_walk k (h hash s k) (s.table.getD (h hash s k) []) 0 := by
  simp [find_, h0]

theorem mem_keys_iff_exists (s : ADS_set Key) (k : Key) :
    k ∈ keys s ↔ ∃ i, i < s.table.length ∧ k ∈ (s.table.getD i []).flatten := by
  unfold keys
  constructor
  · intro hk
    obtain ⟨b, hb, hkb⟩ := List.mem_flatten.mp hk
    obtain ⟨c, hc, hbc⟩ := List.mem_flatten.mp hb
    obtain ⟨i, hi, e⟩ := List.mem_iff_getElem.mp hc
    refine ⟨i, hi, ?_⟩
    rw [List.getD_eq_getElem _ _ hi, e]
    exact List.mem_flatten.mpr ⟨b, hbc, hkb⟩
  · rintro ⟨i, hi, hk⟩
    obtain ⟨b, hb, hkb⟩ := List.mem_flatten.mp hk
    exact List.mem_flatten.mpr ⟨b, List.mem_flatten.mpr ⟨_, getD_mem _ i [] hi, hb⟩, hkb⟩

theorem WF.mem_keys_iff {hash : Key → Nat} {N : Nat} {s : ADS_set Key} (w : WF hash N s)
    (k : Key) : k ∈ keys s ↔ k ∈ (s.table.getD (h hash s k) []).flatten := by
  rw [mem_keys_iff_exists]
  constructor
  · rintro ⟨i, _, hk⟩
    rw [w.placed i k hk]; exact hk
  · intro hk
    exact ⟨_, w.h_lt_length k, hk⟩

theorem find__snd_none_iff {hash : Key → Nat} {N : Nat} {s : ADS_set Key}
    (inv : Inv hash N s) (k : Key) : (find_ hash s k).2 = none ↔ k ∉ keys s := by
  rcases inv.shape with ⟨ht, h0, -, -⟩ | ⟨w, -⟩
  · rw [find__of_zero hash s k h0]
    simp [keys, ht]
  · rw [find__of_ne hash s k w.table_size_ne, find_walk_snd_none, w.mem_keys_iff]

theorem count_eq {hash : Key → Nat} {N : Nat} {s : ADS_set Key}
    (inv : Inv hash N s) (k : Key) : count hash s k = if k ∈ keys s then 1 else 0 := by
  unfold count
  by_cases hk : k ∈ keys s
  · have : (find_ hash s k).2 ≠ none := fun e => ((find__snd_none_iff inv k).mp e) hk
    rw [if_pos hk, if_pos (Option.isSome_iff_ne_none.mpr this)]
  · have := (find__snd_none_iff inv k).mpr hk
    rw [if_neg hk, this]; simp

theorem find_key_pos (hash : Key → Nat) (s : ADS_set Key) (k : Key) :
    (find hash s k).key_pos = (find_ hash s k).2 := by
  unfold find
  simp only
  split_ifs with e
  · rw [e]; rfl
  · rfl

theorem find_eq_end_iff {hash : Key → Nat} {N : Nat} {s : ADS_set Key}
    (inv : Inv hash N s) (k : Key) :
    Iterator.eq (find hash s k) (end_ s) = true ↔ k ∉ keys s := by
  unfold Iterator.eq
  rw [find_key_pos, ← find__snd_none_iff inv k]
  simp [end_]

theorem find__present {hash : Key → Nat} {N : Nat} {s : ADS_set Key}
    (w : WF hash N s) (k : Key) (hk : k ∈ keys s) :
    ∃ m x, find_ hash s k = (some (h hash s k, m), some (h hash s k, m, x)) ∧
      m < (s.table.getD (h hash s k) []).length ∧
      ((s.table.getD (h hash s k) []).getD m [])[x]? = some k := by
  have hne : (find_ hash s k).2 ≠ none := by
    rw [find__of_ne hash s k w.table_size_ne, Ne, find_walk_snd_none, ← w.mem_keys_iff]
    exact fun hc => hc hk
  obtain ⟨r, hr⟩ := Option.ne_none_iff_exists'.mp hne
  rw [find__of_ne hash s k w.table_size_ne] at hr ⊢
  obtain ⟨m, x, e1, e2, e3, e4⟩ := find_walk_some k _ _ 0 r hr
  refine ⟨m, x, ?_, e2, e3⟩
  rw [Nat.zero_add] at e1 e4
  rw [← e1, ← hr, ← e4]

theorem Inv.wf_of_mem {hash : Key → Nat} {N : Nat} {s : ADS_set Key}
    (inv : Inv hash N s) {k : Key} (hk : k ∈ keys s) : WF hash N s := by
  rcases inv.shape with ⟨ht, -, -, -⟩ | ⟨w, -⟩
  · simp [keys, ht] at hk
  · exact w

theorem deref_find {hash : Key → Nat} {N : Nat} {s : ADS_set Key}
    (inv : Inv hash N s) (k : Key) (hk : k ∈ keys s) :
    Iterator.deref s (find hash s k) = .ok k := by
  obtain ⟨m, x, e, -, hx⟩ := find__present (inv.wf_of_mem hk) k hk
  unfold Iterator.deref
  rw [find_key_pos, e]
  simp only
  rw [hx]

/-! ## The invariant is kept by `insert` and `erase` -/

theorem empty_set_inv (hash : Key → Nat) (N : Nat) : Inv hash N (empty_set : ADS_set Key) := by
  refine ⟨Or.inl ⟨rfl, rfl, rfl, rfl⟩, ?_, ?_⟩
  · simp [keys, empty_set, ctor]
  · simp [keys, empty_set, ctor]

theorem first_chain_wf (hash : Key → Nat) (N : Nat) (s : ADS_set Key)
    (hd : s.d = 0) (hn : s.next_to_split = 0) :
    WF hash N { s with table := [[[]]], table_size := 1 } := by
  refine ⟨rfl, ?_, ?_, ?_, ?_, ?_⟩
  · simp [hd, hn]
  · simp [hn]
  · intro c hc; simp only [List.mem_singleton] at hc; rw [hc]; simp
  · intro c hc b hb
    simp only [List.mem_singleton] at hc
    rw [hc] at hb; simp only [List.mem_singleton] at hb; rw [hb]; simp
  · intro i x hx
    cases i with
    | zero => simp at hx
    | succ i => simp at hx

theorem insert_core_spec (hash : Key → Nat) (N : Nat) (hN : 1 ≤ N) (s : ADS_set Key)
    (k : Key) (inv : Inv hash N s) (hk : k ∉ keys s) :
    WF hash N (insert_core hash N s k).1 ∧
      (insert_core hash N s k).1.next_to_split < 2 ^ (insert_core hash N s k).1.d ∧
      (keys (insert_core hash N s k).1).Perm (k :: keys s) ∧
      (insert_core hash N s k).1.curr_size = s.curr_size + 1 ∧
      Inv hash N (insert_core hash N s k).1 := by
  have key : ∀ s1 : ADS_set Key, WF hash N s1 → s1.next_to_split < 2 ^ s1.d →
      keys s1 = keys s → s1.curr_size = s.curr_size →
      WF hash N (insert_core hash N s1 k).1 ∧
      (insert_core hash N s1 k).1.next_to_split < 2 ^ (insert_core hash N s1 k).1.d ∧
      (keys (insert_core hash N s1 k).1).Perm (k :: keys s) ∧
      (insert_core hash N s1 k).1.curr_size = s.curr_size + 1 ∧
      Inv hash N (insert_core hash N s1 k).1 := by
    intro s1 w1 hlt hkeys hcs
    have w' := insert_core_wf hash N hN s1 k w1
    have f := insert_core_fields hash N s1 k w1.table_size_ne
    have p := insert_core_keys hash N hN s1 k w1
    rw [hkeys] at p
    have hlt' : (insert_core hash N s1 k).1.next_to_split < 2 ^ (insert_core hash N s1 k).1.d := by
      rw [f.1, f.2.1]; exact hlt
    have hnd : (k :: keys s).Nodup := List.nodup_cons.mpr ⟨hk, inv.nodup⟩
    refine ⟨w', hlt', p, by rw [f.2.2.2.2, hcs], ⟨Or.inr ⟨w', hlt'⟩, p.nodup_iff.mpr hnd, ?_⟩⟩
    rw [f.2.2.2.2, hcs, inv.card, p.length_eq, List.length_cons]
  rcases inv.shape with ⟨ht, h0, hd, hn⟩ | ⟨w, hlt⟩
  · rw [insert_core_of_zero hash N s k h0]
    refine key _ (first_chain_wf hash N s hd hn) ?_ ?_ rfl
    · simp [hd, hn]
    · simp [keys, ht]
  · exact key s w hlt rfl rfl

theorem insert__spec (hash : Key → Nat) (N : Nat) (hN : 1 ≤ N) (s : ADS_set Key)
    (k : Key) (inv : Inv hash N s) (hk : k ∉ keys s) :
    Inv hash N (insert_ hash N s k true) ∧ WF hash N (insert_ hash N s k true) ∧
      (keys (insert_ hash N s k true)).Perm (k :: keys s) ∧
      (insert_ hash N s k true).curr_size = s.curr_size + 1 := by
  obtain ⟨w, hlt, p, hc, inv'⟩ := insert_core_spec hash N hN s k inv hk
  unfold insert_
  simp only [Bool.true_and]
  split_ifs with hsig
  · obtain ⟨w2, hlt2, p2, hc2, -⟩ := split_spec hash N hN _ w hlt
    refine ⟨⟨Or.inr ⟨w2, hlt2⟩, p2.nodup_iff.mpr inv'.nodup, ?_⟩, w2, p2.trans p, ?_⟩
    · rw [hc2, inv'.card, p2.length_eq]
    · rw [hc2, hc]
  · exact ⟨inv', w, p, hc⟩

theorem insert_state (hash : Key → Nat) (N : Nat) (s : ADS_set Key) (k : Key)
    (inv : Inv hash N s) :
    (insert hash N s k).1 = if k ∈ keys s then s else insert_ hash N s k true := by
  unfold insert
  simp only
  by_cases hk : k ∈ keys s
  · have : ¬ Iterator.eq (find hash s k) (end_ s) = true :=
      fun e => ((find_eq_end_iff inv k).mp e) hk
    rw [if_neg this, if_pos hk]
  · rw [if_pos ((find_eq_end_iff inv k).mpr hk), if_neg hk]

theorem insert_inv (hash : Key → Nat) (N : Nat) (hN : 1 ≤ N) (s : ADS_set Key) (k : Key)
    (inv : Inv hash N s) : Inv hash N (insert hash N s k).1 := by
  rw [insert_state hash N s k inv]
  split_ifs with hk
  · exact inv
  · exact (insert__spec hash N hN s k inv hk).1

theorem insert_mem_keys (hash : Key → Nat) (N : Nat) (hN : 1 ≤ N) (s : ADS_set Key) (k : Key)
    (inv : Inv hash N s) (x : Key) :
    x ∈ keys (insert hash N s k).1 ↔ x = k ∨ x ∈ keys s := by
  rw [insert_state hash N s k inv]
  split_ifs with hk
  · constructor
    · exact fun hx => Or.inr hx
    · rintro (e | e)
      · rw [e]; exact hk
      · exact e
  · rw [(insert__spec hash N hN s k inv hk).2.2.1.mem_iff, List.mem_cons]

/-! ### `erase` -/

theorem perm_cons_eraseIdx {α : Type} (b : List α) (x : Nat) (k : α) (hx : b[x]? = some k) :
    b.Perm (k :: b.eraseIdx x) := by
  induction b generalizing x with
  | nil => simp at hx
  | cons a rest ih =>
    cases x with
    | zero => simp at hx; subst hx; simp
    | succ x =>
      simp only [List.getElem?_cons_succ] at hx
      simp only [List.eraseIdx_cons_succ]
      exact ((ih x hx).cons a).trans (List.Perm.swap k a _)

theorem flatten_set_perm_rev {α : Type} {t : List (List α)} {i : Nat} (hi : i < t.length)
    {c' : List α} {k : α} (hp : (t.getD i []).Perm (k :: c')) :
    t.flatten.Perm (k :: (t.set i c').flatten) := by
  induction t generalizing i with
  | nil => simp at hi
  | cons c t ih =>
    cases i with
    | zero =>
      simp only [List.set_cons_zero, List.flatten_cons]
      simp only [List.getD_cons_zero] at hp
      exact hp.append_right _
    | succ i =>
      simp only [List.set_cons_succ, List.flatten_cons]
      simp only [List.getD_cons_succ] at hp
      have := ih (Nat.lt_of_succ_lt_succ hi) hp
      exact (this.append_left _).trans List.perm_middle

theorem flatten2_set_perm_rev {t : List (List (List Key))} {i : Nat} (hi : i < t.length)
    {c' : List (List Key)} {k : Key} (hp : (t.getD i []).flatten.Perm (k :: c'.flatten)) :
    t.flatten.flatten.Perm (k :: (t.set i c').flatten.flatten) := by
  induction t generalizing i with
  | nil => simp at hi
  | cons c t ih =>
    cases i with
    | zero =>
      simp only [List.set_cons_zero, List.flatten_cons, List.flatten_append]
      simp only [List.getD_cons_zero] at hp
      exact hp.append_right _
    | succ i =>
      simp only [List.set_cons_succ, List.flatten_cons, List.flatten_append]
      simp only [List.getD_cons_succ] at hp
      have := ih (Nat.lt_of_succ_lt_succ hi) hp
      exact (this.append_left _).trans List.perm_middle

theorem erase_absent (hash : Key → Nat) (N : Nat) (s : ADS_set Key) (k : Key)
    (inv : Inv hash N s) (hk : k ∉ keys s) : erase hash s k = (s, 0) := by
  have h2 := (find__snd_none_iff inv k).mpr hk
  unfold erase
  rw [h2]
  split
  · rename_i e1 e2; exact Option.noConfusion e2
  · rfl

theorem erase_present (hash : Key → Nat) (N : Nat) (s : ADS_set Key) (k : Key)
    (inv : Inv hash N s) (hk : k ∈ keys s) :
    ∃ m x, m < (s.table.getD (h hash s k) []).length ∧
      ((s.table.getD (h hash s k) []).getD m [])[x]? = some k ∧
      find_ hash s k = (some (h hash s k, m), some (h hash s k, m, x)) ∧
      erase hash s k =
        ({ s with
           table := s.table.set (h hash s k)
             ((s.table.getD (h hash s k) []).set m
               (((s.table.getD (h hash s k) []).getD m []).eraseIdx x))
           curr_size := s.curr_size - 1 }, 1) := by
  obtain ⟨m, x, e, hm, hx⟩ := find__present (inv.wf_of_mem hk) k hk
  refine ⟨m, x, hm, hx, e, ?_⟩
  unfold erase
  rw [e]

theorem erase_spec (hash : Key → Nat) (N : Nat) (s : ADS_set Key) (k : Key)
    (inv : Inv hash N s) (hk : k ∈ keys s) :
    (erase hash s k).2 = 1 ∧ Inv hash N (erase hash s k).1 ∧
      (keys s).Perm (k :: keys (erase hash s k).1) ∧
      (erase hash s k).1.curr_size + 1 = s.curr_size := by
  have w := inv.wf_of_mem hk
  have hlt : s.next_to_split < 2 ^ s.d := by
    rcases inv.shape with ⟨ht, -, -, -⟩ | ⟨-, hlt⟩
    · simp [keys, ht] at hk
    · exact hlt
  obtain ⟨m, x, hm, hx, -, e⟩ := erase_present hash N s k inv hk
  have hi := w.h_lt_length k
  have hcm := getD_mem s.table (h hash s k) [] hi
  have hbm := getD_mem (s.table.getD (h hash s k) []) m [] hm
  have pb := perm_cons_eraseIdx _ x k hx
  have pc : (s.table.getD (h hash s k) []).flatten.Perm
      (k :: ((s.table.getD (h hash s k) []).set m
        (((s.table.getD (h hash s k) []).getD m []).eraseIdx x)).flatten) :=
    flatten_set_perm_rev hm pb
  have pk := flatten2_set_perm_rev hi pc
  have hpos : 0 < s.curr_size := by
    rw [inv.card]; exact List.length_pos_of_mem hk
  rw [e]
  have hnd : (k :: (s.table.set (h hash s k)
      ((s.table.getD (h hash s k) []).set m
        (((s.table.getD (h hash s k) []).getD m []).eraseIdx x))).flatten.flatten).Nodup :=
    pk.nodup_iff.mp inv.nodup
  refine ⟨rfl, ⟨Or.inr ⟨⟨?_, w.size_eq, w.nts_le, ?_, ?_, ?_⟩, hlt⟩, ?_, ?_⟩, pk, ?_⟩
  · simpa using w.len
  · intro c hc
    rcases mem_set_cases hc with e1 | e1
    · rw [e1]
      intro hnil
      have := congrArg List.length hnil
      rw [List.length_set, List.length_nil] at this
      omega
    · exact w.chain_ne c e1
  · intro c hc b hb
    rcases mem_set_cases hc with e1 | e1
    · rw [e1] at hb
      rcases mem_set_cases hb with e2 | e2
      · rw [e2]
        exact le_trans (List.length_eraseIdx_le _ _) (w.cap _ hcm _ hbm)
      · exact w.cap _ hcm b e2
    · exact w.cap c e1 b hb
  · intro i y hy
    simp only at hy
    have hh : h hash
        { s with
          table := s.table.set (h hash s k)
            ((s.table.getD (h hash s k) []).set m
              (((s.table.getD (h hash s k) []).getD m []).eraseIdx x))
          curr_size := s.curr_size - 1 } y = h hash s y := rfl
    rw [hh]
    by_cases hik : h hash s k = i
    · subst hik
      rw [getD_set_eq _ _ _ _ hi] at hy
      exact w.placed _ y (pc.symm.subset (List.mem_cons_of_mem _ hy))
    · rw [getD_set_ne _ _ _ _ _ hik] at hy
      exact w.placed i y hy
  · exact (List.nodup_cons.mp hnd).2
  · have := pk.length_eq
    simp only [keys, List.length_cons] at this ⊢
    have hc := inv.card
    simp only [keys] at hc
    omega
  · simp only; omega

theorem erase_inv (hash : Key → Nat) (N : Nat) (s : ADS_set Key) (k : Key)
    (inv : Inv hash N s) : Inv hash N (erase hash s k).1 := by
  by_cases hk : k ∈ keys s
  · exact (erase_spec hash N s k inv hk).2.1
  · rw [erase_absent hash N s k inv hk]; exact inv

theorem erase_mem_keys (hash : Key → Nat) (N : Nat) (s : ADS_set Key) (k : Key)
    (inv : Inv hash N s) (x : Key) :
    x ∈ keys (erase hash s k).1 ↔ x ≠ k ∧ x ∈ keys s := by
  by_cases hk : k ∈ keys s
  · obtain ⟨-, -, p, -⟩ := erase_spec hash N s k inv hk
    have hnd : (k :: keys (erase hash s k).1).Nodup := p.nodup_iff.mp inv.nodup
    have hnk := (List.nodup_cons.mp hnd).1
    constructor
    · intro hx
      refine ⟨fun e => hnk (e ▸ hx), p.symm.subset (List.mem_cons_of_mem _ hx)⟩
    · rintro ⟨hne, hx⟩
      rcases List.mem_cons.mp (p.subset hx) with e | e
      · exact absurd e hne
      · exact e
  · rw [erase_absent hash N s k inv hk]
    constructor
    · intro hx
      exact ⟨fun e => hk (e ▸ hx), hx⟩
    · exact fun hx => hx.2

theorem Reachable.inv {hash : Key → Nat} {N : Nat} (hN : 1 ≤ N) {s : ADS_set Key}
    (r : Reachable hash N s) : Inv hash N s := by
  induction r with
  | init => exact empty_set_inv hash N
  | step_insert key _ ih => exact insert_inv hash N hN _ key ih
  | step_erase key _ ih => exact erase_inv hash N _ key ih

/-! ## Iteration -/

theorem getD_append_cons {α : Type} (pre : List α) (a : α) (post : List α) (dflt : α) :
    (pre ++ a :: post).getD pre.length dflt = a := by
  rw [List.getD_eq_getElem?_getD, List.getElem?_append_right (le_refl _)]
  simp

theorem skip_spec (s : ADS_set Key) (hlen : s.table.length = s.table_size)
    (hne : ∀ c ∈ s.table, c ≠ []) :
    ∀ (fuel : Nat) (pre : List (List (List Key))) (cpre : List (List Key)) (b : List Key)
      (cpost : List (List Key)) (post : List (List (List Key)))
      (kp : Option (Nat × Nat × Nat)),
      s.table = pre ++ (cpre ++ b :: cpost) :: post →
      1 + cpost.length + post.flatten.length ≤ fuel →
      ∃ it', Iterator.skip s fuel
          { table_size := s.table_size
            index_pos := pre.length
            current_bucket := some (pre.length, cpre.length)
            key_pos := kp } = some it' ∧
        IterAt s it' (b ++ cpost.flatten ++ post.flatten.flatten) := by
  intro fuel
  induction fuel with
  | zero => intro pre cpre b cpost post kp _ hf; omega
  | succ fuel ih =>
    intro pre cpre b cpost post kp ht hf
    have hc : s.table.getD pre.length [] = cpre ++ b :: cpost := by
      rw [ht]; exact getD_append_cons _ _ _ _
    have hb : (cpre ++ b :: cpost).getD cpre.length [] = b := getD_append_cons _ _ _ _
    unfold Iterator.skip
    simp only [hc, hb]
    cases b with
    | cons k bpost =>
      refine ⟨_, by simp [bucket_empty], Or.inr ⟨pre, cpre, [], k, bpost, cpost, post, ht, rfl, ?_⟩⟩
      simp
    | nil =>
      simp only [bucket_empty, List.length_nil, beq_self_eq_true, Bool.not_true,
        Bool.false_eq_true, if_false]
      cases cpost with
      | cons b' cpost' =>
        have ho : overflow_bucket s pre.length cpre.length = some (pre.length, cpre.length + 1) := by
          unfold overflow_bucket; rw [hc]; simp
        rw [ho]
        simp only
        have ht' : s.table = pre ++ ((cpre ++ [[]]) ++ b' :: cpost') :: post := by
          rw [ht]; simp
        have := ih pre (cpre ++ [[]]) b' cpost' post kp ht' (by simp at hf ⊢; omega)
        simpa using this
      | nil =>
        have ho : overflow_bucket s pre.length cpre.length = none := by
          unfold overflow_bucket; rw [hc]; simp
        rw [ho]
        simp only
        cases post with
        | nil =>
          have hl : pre.length + 1 = s.table_size := by
            rw [← hlen, ht]; simp
          refine ⟨_, by simp [hl]; rfl, Or.inl ⟨?_, by simp⟩⟩
          simp [end_, hl]
        | cons chain' post' =>
          have hl : pre.length + 1 ≠ s.table_size := by
            rw [← hlen, ht]; simp
          have hcne : chain' ≠ [] := hne chain' (by rw [ht]; simp)
          obtain ⟨b', cpost', rfl⟩ := List.exists_cons_of_ne_nil hcne
          have hh : head_bucket s (pre.length + 1) = some (pre.length + 1, 0) := by
            have ht' : s.table = (pre ++ [cpre ++ [[]]]) ++ (b' :: cpost') :: post' := by
              rw [ht]; simp
            have : s.table.getD (pre.length + 1) [] = b' :: cpost' := by
              have := getD_append_cons (pre ++ [cpre ++ [[]]]) (b' :: cpost') post' []
              rw [← ht'] at this
              simpa using this
            unfold head_bucket; rw [this]; simp
          rw [hh]
          have ht' : s.table = (pre ++ [cpre ++ [[]]]) ++ ([] ++ b' :: cpost') :: post' := by
            rw [ht]; simp
          have := ih (pre ++ [cpre ++ [[]]]) [] b' cpost' post' kp ht'
            (by simp at hf ⊢; omega)
          simpa [hl] using this

theorem IterAt.nil_iff {s : ADS_set Key} {it : Iterator} {R : List Key} (hat : IterAt s it R) :
    Iterator.eq it (end_ s) = true ↔ R = [] := by
  rcases hat with ⟨e, hR⟩ | ⟨pre, cpre, bpre, k, bpost, cpost, post, -, e, hR⟩
  · rw [e, hR]; simp [Iterator.eq]
  · rw [e, hR]; simp [Iterator.eq, end_]

theorem incr_spec (s : ADS_set Key) (hlen : s.table.length = s.table_size)
    (hne : ∀ c ∈ s.table, c ≠ []) (sf : Nat) (hsf : s.table.flatten.length ≤ sf)
    (it : Iterator) (k : Key) (R : List Key) (hat : IterAt s it (k :: R)) :
    Iterator.deref s it = .ok k ∧ Iterator.eq it (end_ s) = false ∧
      ∃ it', Iterator.incr s sf it = some it' ∧ IterAt s it' R := by
  have hne_end : Iterator.eq it (end_ s) = false := by
    cases he : Iterator.eq it (end_ s) with
    | false => rfl
    | true => exact absurd (hat.nil_iff.mp he) (by simp)
  rcases hat with ⟨-, hR⟩ | ⟨pre, cpre, bpre, k', bpost, cpost, post, ht, hit, hR⟩
  · simp at hR
  simp only [List.cons_append, List.cons.injEq] at hR
  obtain ⟨rfl, rfl⟩ := hR
  have hc : s.table.getD pre.length [] = cpre ++ (bpre ++ k :: bpost) :: cpost := by
    rw [ht]; exact getD_append_cons _ _ _ _
  have hb : (cpre ++ (bpre ++ k :: bpost) :: cpost).getD cpre.length [] = bpre ++ k :: bpost :=
    getD_append_cons _ _ _ _
  have htot : s.table.flatten.length =
      pre.flatten.length + (cpre.length + (1 + cpost.length)) + post.flatten.length := by
    rw [ht, List.flatten_append, List.length_append, List.flatten_cons, List.length_append,
      List.length_append, List.length_cons]
    omega
  refine ⟨?_, hne_end, ?_⟩
  · unfold Iterator.deref
    rw [hit]
    simp only [hc, hb]
    rw [List.getElem?_append_right (le_refl _)]
    simp
  · unfold Iterator.incr
    rw [hit]
    simp only [hc, hb]
    cases bpost with
    | cons b1 bpost' =>
      refine ⟨{ table_size := s.table_size
                index_pos := pre.length
                current_bucket := some (pre.length, cpre.length)
                key_pos := some (pre.length, cpre.length, bpre.length + 1) }, by simp,
        Or.inr ⟨pre, cpre, bpre ++ [k], b1, bpost', cpost, post, ?_, ?_, ?_⟩⟩
      · rw [ht]; simp
      · simp
      · simp
    | nil =>
      simp only [List.length_append, List.length_singleton, if_true]
      cases cpost with
      | cons b' cpost' =>
        have ho : overflow_bucket s pre.length cpre.length
            = some (pre.length, cpre.length + 1) := by
          unfold overflow_bucket; rw [hc]; simp
        rw [ho]
        simp only
        have ht' : s.table = pre ++ ((cpre ++ [bpre ++ [k]]) ++ b' :: cpost') :: post := by
          rw [ht]; simp
        have := skip_spec s hlen hne sf pre (cpre ++ [bpre ++ [k]]) b' cpost' post
          (some (pre.length, cpre.length, bpre.length + 1)) ht'
          (by simp only [List.length_cons] at htot; omega)
        simpa using this
      | nil =>
        have ho : overflow_bucket s pre.length cpre.length = none := by
          unfold overflow_bucket; rw [hc]; simp
        rw [ho]
        simp only
        cases post with
        | nil =>
          have hl : pre.length + 1 = s.table_size := by
            rw [← hlen, ht]; simp
          refine ⟨_, by simp [hl]; rfl, Or.inl ⟨?_, by simp⟩⟩
          simp [end_, hl]
        | cons chain' post' =>
          have hl : pre.length + 1 ≠ s.table_size := by
            rw [← hlen, ht]; simp
          have hcne : chain' ≠ [] := hne chain' (by rw [ht]; simp)
          obtain ⟨b', cpost', rfl⟩ := List.exists_cons_of_ne_nil hcne
          have ht' : s.table =
              (pre ++ [cpre ++ [bpre ++ [k]]]) ++ ([] ++ b' :: cpost') :: post' := by
            rw [ht]; simp
          have hh : head_bucket s (pre.length + 1) = some (pre.length + 1, 0) := by
            have : s.table.getD (pre.length + 1) [] = b' :: cpost' := by
              have := getD_append_cons (pre ++ [cpre ++ [bpre ++ [k]]]) (b' :: cpost') post' []
              rw [List.nil_append] at ht'
              rw [← ht'] at this
              simpa using this
            unfold head_bucket; rw [this]; simp
          rw [hh]
          have := skip_spec s hlen hne sf (pre ++ [cpre ++ [bpre ++ [k]]]) [] b' cpost' post'
            (some (pre.length, cpre.length, bpre.length + 1)) ht'
            (by
              simp only [List.flatten_cons, List.length_append, List.length_cons,
                List.length_nil] at htot
              omega)
          simpa [hl] using this

theorem begin_spec (s : ADS_set Key) (hlen : s.table.length = s.table_size)
    (hne : ∀ c ∈ s.table, c ≠ []) (hcard : s.curr_size = (keys s).length)
    (fuel : Nat) (hf : s.table.flatten.length ≤ fuel) :
    ∃ it, begin s fuel = some it ∧ IterAt s it (keys s) := by
  unfold begin
  by_cases h0 : s.curr_size = 0
  · have : keys s = [] := List.length_eq_zero.mp (by rw [← hcard]; exact h0)
    refine ⟨end_ s, by simp [h0], Or.inl ⟨rfl, this⟩⟩
  · have hk : keys s ≠ [] := by
      intro e; rw [e] at hcard; exact h0 (by simpa using hcard)
    have htne : s.table ≠ [] := by
      intro e; apply hk; simp [keys, e]
    obtain ⟨chain, post, ht⟩ := List.exists_cons_of_ne_nil htne
    have hcne : chain ≠ [] := hne chain (by rw [ht]; simp)
    obtain ⟨b, cpost, rfl⟩ := List.exists_cons_of_ne_nil hcne
    have hts : s.table_size ≠ 0 := by rw [← hlen, ht]; simp
    have hh : head_bucket s 0 = some (0, 0) := by
      unfold head_bucket; rw [ht]; simp
    have ht' : s.table = [] ++ ([] ++ b :: cpost) :: post := by rw [ht]; simp
    have := skip_spec s hlen hne fuel [] [] b cpost post none ht'
      (by rw [ht] at hf; simp at hf ⊢; omega)
    have hkeys : keys s = b ++ cpost.flatten ++ post.flatten.flatten := by
      simp [keys, ht]
    rw [hkeys]
    simp only [beq_iff_eq, h0, if_false]
    unfold Iterator.at_index
    have hts' : ¬ (0 = s.table_size) := fun e => hts e.symm
    simp only [beq_iff_eq, hts', if_false, hh]
    simpa using this

theorem collect_spec (s : ADS_set Key) (hlen : s.table.length = s.table_size)
    (hne : ∀ c ∈ s.table, c ≠ []) (sf : Nat) (hsf : s.table.flatten.length ≤ sf) :
    ∀ (R : List Key) (it : Iterator) (fuel : Nat), IterAt s it R → R.length + 1 ≤ fuel →
      Iterator.collect s sf fuel it = some R := by
  intro R
  induction R with
  | nil =>
    intro it fuel hat hf
    obtain ⟨f, rfl⟩ : ∃ f, fuel = f + 1 := ⟨fuel - 1, by omega⟩
    unfold Iterator.collect
    rw [if_pos (hat.nil_iff.mpr rfl)]
  | cons k R ih =>
    intro it fuel hat hf
    obtain ⟨f, rfl⟩ : ∃ f, fuel = f + 1 := ⟨fuel - 1, by omega⟩
    obtain ⟨hd, he, it', hi, hat'⟩ := incr_spec s hlen hne sf hsf it k R hat
    unfold Iterator.collect
    rw [he, hd, hi]
    simp only [Bool.false_eq_true, if_false]
    rw [ih it' f hat' (by simp at hf; omega)]
    rfl

theorem Inv.len {hash : Key → Nat} {N : Nat} {s : ADS_set Key} (inv : Inv hash N s) :
    s.table.length = s.table_size := by
  rcases inv.shape with ⟨ht, h0, -, -⟩ | ⟨w, -⟩
  · rw [ht, h0]; rfl
  · exact w.len

theorem Inv.chain_ne {hash : Key → Nat} {N : Nat} {s : ADS_set Key} (inv : Inv hash N s) :
    ∀ c ∈ s.table, c ≠ [] := by
  rcases inv.shape with ⟨ht, -, -, -⟩ | ⟨w, -⟩
  · rw [ht]; simp
  · exact w.chain_ne

theorem fuel_bound_buckets (s : ADS_set Key) : s.table.flatten.length ≤ fuel_bound s := by
  unfold fuel_bound; omega

theorem fuel_bound_keys (s : ADS_set Key) : (keys s).length + 1 ≤ fuel_bound s := by
  unfold fuel_bound keys; omega

theorem to_list_spec {hash : Key → Nat} {N : Nat} {s : ADS_set Key} (inv : Inv hash N s)
    (fuel : Nat) (hf : fuel_bound s ≤ fuel) : to_list s fuel = some (keys s) := by
  have hb := le_trans (fuel_bound_buckets s) hf
  obtain ⟨it, e, hat⟩ := begin_spec s inv.len inv.chain_ne inv.card fuel hb
  unfold to_list
  rw [e]
  exact collect_spec s inv.len inv.chain_ne fuel hb (keys s) it fuel hat
    (le_trans (fuel_bound_keys s) hf)

theorem advance_spec (s : ADS_set Key) (hlen : s.table.length = s.table_size)
    (hne : ∀ c ∈ s.table, c ≠ []) (sf : Nat) (hsf : s.table.flatten.length ≤ sf) :
    ∀ (m : Nat) (R : List Key) (it : Iterator), IterAt s it R → m ≤ R.length →
      ∃ it', Iterator.advance s sf m it = some it' ∧ IterAt s it' (R.drop m) := by
  intro m
  induction m with
  | zero => intro R it hat _; exact ⟨it, rfl, by simpa using hat⟩
  | succ m ih =>
    intro R it hat hm
    cases R with
    | nil => simp at hm
    | cons k R =>
      obtain ⟨-, -, it', hi, hat'⟩ := incr_spec s hlen hne sf hsf it k R hat
      obtain ⟨it'', ha, hat''⟩ := ih R it' hat' (by simpa using hm)
      refine ⟨it'', ?_, by simpa using hat''⟩
      unfold Iterator.advance
      rw [hi]
      exact ha

theorem advance_positions {hash : Key → Nat} {N : Nat} {s : ADS_set Key} (inv : Inv hash N s)
    (fuel : Nat) (hf : fuel_bound s ≤ fuel) :
    ∃ b, begin s fuel = some b ∧
      (∀ (m : Nat) (hm : m < (keys s).length),
        ∃ it, Iterator.advance s fuel m b = some it ∧ Iterator.eq it (end_ s) = false ∧
          Iterator.deref s it = .ok ((keys s).get ⟨m, hm⟩)) ∧
      ∃ e, Iterator.advance s fuel (keys s).length b = some e ∧
        Iterator.eq e (end_ s) = true := by
  have hb := le_trans (fuel_bound_buckets s) hf
  obtain ⟨b, e, hat⟩ := begin_spec s inv.len inv.chain_ne inv.card fuel hb
  refine ⟨b, e, ?_, ?_⟩
  · intro m hm
    obtain ⟨it, ha, hat'⟩ := advance_spec s inv.len inv.chain_ne fuel hb m (keys s) b hat
      (Nat.le_of_lt hm)
    have hd : (keys s).drop m = (keys s).get ⟨m, hm⟩ :: (keys s).drop (m + 1) := by
      rw [List.drop_eq_getElem_cons hm]; rfl
    rw [hd] at hat'
    obtain ⟨h1, h2, -⟩ := incr_spec s inv.len inv.chain_ne fuel hb it _ _ hat'
    exact ⟨it, ha, h2, h1⟩
  · obtain ⟨it, ha, hat'⟩ := advance_spec s inv.len inv.chain_ne fuel hb (keys s).length
      (keys s) b hat (le_refl _)
    rw [List.drop_length] at hat'
    exact ⟨it, ha, hat'.nil_iff.mpr rfl⟩

/-! ## Set equality and copying -/

theorem eq_loop_spec (hash : Key → Nat) (lhs rhs : ADS_set Key)
    (hlen : rhs.table.length = rhs.table_size) (hne : ∀ c ∈ rhs.table, c ≠ [])
    (sf : Nat) (hsf : rhs.table.flatten.length ≤ sf) :
    ∀ (R : List Key) (it : Iterator) (fuel : Nat), IterAt rhs it R → R.length + 1 ≤ fuel →
      eq_loop hash lhs rhs sf fuel it = some (R.all (fun k => !(count hash lhs k == 0))) := by
  intro R
  induction R with
  | nil =>
    intro it fuel hat hf
    obtain ⟨f, rfl⟩ : ∃ f, fuel = f + 1 := ⟨fuel - 1, by omega⟩
    unfold eq_loop
    rw [if_pos (hat.nil_iff.mpr rfl)]
    rfl
  | cons k R ih =>
    intro it fuel hat hf
    obtain ⟨f, rfl⟩ : ∃ f, fuel = f + 1 := ⟨fuel - 1, by omega⟩
    obtain ⟨hd, he, it', hi, hat'⟩ := incr_spec rhs hlen hne sf hsf it k R hat
    unfold eq_loop
    rw [he, hd, hi]
    simp only [Bool.false_eq_true, if_false, List.all_cons]
    by_cases hc : count hash lhs k = 0
    · simp [hc]
    · have hc' : (count hash lhs k == 0) = false := by simpa using hc
      rw [hc']
      simp only [Bool.false_eq_true, if_false, Bool.not_false, Bool.true_and]
      exact ih it' f hat' (by simp at hf; omega)

theorem op_eq_spec {hash : Key → Nat} {N : Nat} (lhs rhs : ADS_set Key)
    (invr : Inv hash N rhs) (fuel : Nat) (hf : fuel_bound rhs ≤ fuel) :
    op_eq hash lhs rhs fuel =
      some (decide (lhs.curr_size = rhs.curr_size) &&
        (keys rhs).all (fun k => !(count hash lhs k == 0))) := by
  have hb := le_trans (fuel_bound_buckets rhs) hf
  obtain ⟨it, e, hat⟩ := begin_spec rhs invr.len invr.chain_ne invr.card fuel hb
  unfold op_eq
  by_cases hs : lhs.curr_size = rhs.curr_size
  · have hs' : (lhs.curr_size != rhs.curr_size) = false := by simp [hs]
    rw [hs', e]
    simp only [Bool.false_eq_true, if_false, hs, decide_True, Bool.true_and]
    exact eq_loop_spec hash lhs rhs invr.len invr.chain_ne fuel hb (keys rhs) it fuel hat
      (le_trans (fuel_bound_keys rhs) hf)
  · have hs' : (lhs.curr_size != rhs.curr_size) = true := by simp [hs]
    rw [hs']
    simp [hs]

theorem count_eq_iff_mem {hash : Key → Nat} {N : Nat} {a b : ADS_set Key}
    (inva : Inv hash N a) (invb : Inv hash N b) (k : Key) :
    count hash a k = count hash b k ↔ (k ∈ keys a ↔ k ∈ keys b) := by
  rw [count_eq inva, count_eq invb]
  by_cases h1 : k ∈ keys a <;> by_cases h2 : k ∈ keys b <;> simp [h1, h2]

theorem count_ne_zero_iff {hash : Key → Nat} {N : Nat} {a : ADS_set Key}
    (inva : Inv hash N a) (k : Key) : count hash a k ≠ 0 ↔ k ∈ keys a := by
  rw [count_eq inva]
  by_cases h1 : k ∈ keys a <;> simp [h1]

theorem op_eq_iff {hash : Key → Nat} {N : Nat} (lhs rhs : ADS_set Key)
    (invl : Inv hash N lhs) (invr : Inv hash N rhs) (fuel : Nat) (hf : fuel_bound rhs ≤ fuel) :
    ∃ r, op_eq hash lhs rhs fuel = some r ∧
      (r = true ↔ ∀ k, count hash lhs k = count hash rhs k) := by
  refine ⟨_, op_eq_spec lhs rhs invr fuel hf, ?_⟩
  simp only [Bool.and_eq_true, decide_eq_true_eq, List.all_eq_true, Bool.not_eq_true',
    beq_eq_false_iff_ne]
  constructor
  · rintro ⟨hs, hall⟩ k
    rw [count_eq_iff_mem invl invr]
    have hsub : keys rhs ⊆ keys lhs := fun x hx => (count_ne_zero_iff invl x).mp (hall x hx)
    have hlen : (keys lhs).length ≤ (keys rhs).length := by
      rw [← invl.card, ← invr.card, hs]
    have hp : (keys rhs).Perm (keys lhs) :=
      (List.subperm_of_subset invr.nodup hsub).perm_of_length_le hlen
    exact hp.mem_iff.symm
  · intro hall
    have hmem : ∀ k, k ∈ keys lhs ↔ k ∈ keys rhs :=
      fun k => (count_eq_iff_mem invl invr k).mp (hall k)
    have hp : (keys lhs).Perm (keys rhs) :=
      (List.perm_ext_iff_of_nodup invl.nodup invr.nodup).mpr hmem
    refine ⟨?_, ?_⟩
    · rw [invl.card, invr.card, hp.length_eq]
    · intro x hx
      exact (count_ne_zero_iff invl x).mpr ((hmem x).mpr hx)

theorem copy_loop_spec (hash : Key → Nat) (N : Nat) (other : ADS_set Key)
    (hlen : other.table.length = other.table_size) (hne : ∀ c ∈ other.table, c ≠ [])
    (sf : Nat) (hsf : other.table.flatten.length ≤ sf) :
    ∀ (R : List Key) (it : Iterator) (fuel : Nat) (this : ADS_set Key),
      IterAt other it R → R.length + 1 ≤ fuel →
      copy_loop hash N other sf fuel it this =
        some (R.foldl (fun acc k => (insert_core hash N acc k).1) this) := by
  intro R
  induction R with
  | nil =>
    intro it fuel this hat hf
    obtain ⟨f, rfl⟩ : ∃ f, fuel = f + 1 := ⟨fuel - 1, by omega⟩
    unfold copy_loop
    rw [if_pos (hat.nil_iff.mpr rfl)]
    rfl
  | cons k R ih =>
    intro it fuel this hat hf
    obtain ⟨f, rfl⟩ : ∃ f, fuel = f + 1 := ⟨fuel - 1, by omega⟩
    obtain ⟨hd, he, it', hi, hat'⟩ := incr_spec other hlen hne sf hsf it k R hat
    unfold copy_loop
    rw [he, hd, hi]
    simp only [Bool.false_eq_true, if_false, List.foldl_cons]
    rw [ih it' f _ hat' (by simp at hf; omega), insert_false_eq]

theorem copy_ctor_eq {hash : Key → Nat} {N : Nat} (other : ADS_set Key)
    (inv : Inv hash N other) (fuel : Nat) (hf : fuel_bound other ≤ fuel) :
    copy_ctor hash N other fuel =
      some ((keys other).foldl (fun acc k => (insert_core hash N acc k).1)
        { (ctor other.d other.table_size : ADS_set Key) with
          next_to_split := other.next_to_split }) := by
  have hb := le_trans (fuel_bound_buckets other) hf
  obtain ⟨it, e, hat⟩ := begin_spec other inv.len inv.chain_ne inv.card fuel hb
  unfold copy_ctor
  simp only
  rw [e]
  exact copy_loop_spec hash N other inv.len inv.chain_ne fuel hb (keys other) it fuel _ hat
    (le_trans (fuel_bound_keys other) hf)

theorem copy_start_wf (hash : Key → Nat) (N : Nat) (other : ADS_set Key)
    (w : WF hash N other) :
    WF hash N
      { (ctor other.d other.table_size : ADS_set Key) with
        next_to_split := other.next_to_split } := by
  refine ⟨?_, w.size_eq, w.nts_le, ?_, ?_, ?_⟩
  · simp [ctor]
  · intro c hc
    simp only [ctor] at hc
    rw [List.eq_of_mem_replicate hc]; simp
  · intro c hc b hb
    simp only [ctor] at hc
    rw [List.eq_of_mem_replicate hc] at hb
    simp only [List.mem_singleton] at hb
    rw [hb]; simp
  · intro i x hx
    simp only [ctor] at hx
    exfalso
    by_cases hi : i < other.table_size
    · rw [List.getD_eq_getElem _ _ (by simpa using hi)] at hx
      simp at hx
    · rw [List.getD_eq_default _ _ (by simpa using hi)] at hx
      simp at hx

theorem copy_ctor_spec {hash : Key → Nat} {N : Nat} (hN : 1 ≤ N) (other : ADS_set Key)
    (inv : Inv hash N other) (fuel : Nat) (hf : fuel_bound other ≤ fuel) :
    ∃ c, copy_ctor hash N other fuel = some c ∧ Inv hash N c ∧
      (keys c).Perm (keys other) ∧ c.curr_size = other.curr_size := by
  refine ⟨_, copy_ctor_eq other inv fuel hf, ?_⟩
  rcases inv.shape with ⟨ht, h0, hd, hn⟩ | ⟨w, hlt⟩
  · have hk : keys other = [] := by simp [keys, ht]
    have hc := inv.card
    rw [hk] at hc ⊢
    simp only [List.foldl_nil]
    refine ⟨⟨Or.inl ⟨?_, ?_, ?_, ?_⟩, ?_, ?_⟩, ?_, ?_⟩
    · simp [ctor, h0]
    · simp [ctor, h0]
    · simp [ctor, hd]
    · simp [hn]
    · simp [keys, ctor, h0]
    · simp [keys, ctor, h0]
    · simp [keys, ctor, h0]
    · simp [ctor, hc]
  · have w0 := copy_start_wf hash N other w
    have hk0 : keys ({ (ctor other.d other.table_size : ADS_set Key) with
        next_to_split := other.next_to_split }) = [] := by
      simp [keys, ctor]
    obtain ⟨w', hd', hn', -, -, hcs, hp⟩ := foldl_insert_core hash N hN (keys other) _ w0
    rw [hk0, List.append_nil] at hp
    refine ⟨⟨Or.inr ⟨w', ?_⟩, hp.nodup_iff.mpr inv.nodup, ?_⟩, hp, ?_⟩
    · rw [hd', hn']; exact hlt
    · rw [hcs, hp.length_eq]; simp [ctor]
    · rw [hcs, inv.card]; simp [ctor]

/-! ## Sequences of calls -/

theorem foldl_apply_op_reachable (hash : Key → Nat) (N : Nat) (ops : List (Op Key))
    (s : ADS_set Key) (r : Reachable hash N s) :
    Reachable hash N (ops.foldl (apply_op hash N) s) := by
  induction ops generalizing s with
  | nil => exact r
  | cons op ops ih =>
    simp only [List.foldl_cons]
    apply ih
    cases op with
    | insert key => exact Reachable.step_insert key r
    | erase key => exact Reachable.step_erase key r

theorem run_reachable (hash : Key → Nat) (N : Nat) (ops : List (Op Key)) :
    Reachable hash N (run hash N ops) :=
  foldl_apply_op_reachable hash N ops _ Reachable.init

theorem foldl_apply_op_model (hash : Key → Nat) (N : Nat) (hN : 1 ≤ N) (ops : List (Op Key))
    (s : ADS_set Key) (m : Finset Key) (inv : Inv hash N s)
    (hm : ∀ x, x ∈ keys s ↔ x ∈ m) :
    ∀ x, x ∈ keys (ops.foldl (apply_op hash N) s) ↔ x ∈ ops.foldl model_op m := by
  induction ops generalizing s m with
  | nil => exact hm
  | cons op ops ih =>
    simp only [List.foldl_cons]
    cases op with
    | insert key =>
      refine ih _ _ (insert_inv hash N hN s key inv) ?_
      intro x
      simp only [apply_op, model_op, Finset.mem_insert]
      rw [insert_mem_keys hash N hN s key inv x, hm]
    | erase key =>
      refine ih _ _ (erase_inv hash N s key inv) ?_
      intro x
      simp only [apply_op, model_op, Finset.mem_erase]
      rw [erase_mem_keys hash N s key inv x, hm]

theorem run_model (hash : Key → Nat) (N : Nat) (hN : 1 ≤ N) (ops : List (Op Key)) :
    ∀ x, x ∈ keys (run hash N ops) ↔ x ∈ model ops :=
  foldl_apply_op_model hash N hN ops _ ∅ (empty_set_inv hash N)
    (by intro x; simp [keys, empty_set, ctor])

theorem insert__eq_or (hash : Key → Nat) (N : Nat) (s : ADS_set Key) (k : Key)
    (inv : Inv hash N s) :
    (if count hash s k == 0 then insert_ hash N s k true else s) = (insert hash N s k).1 := by
  rw [insert_state hash N s k inv, count_eq inv]
  by_cases hk : k ∈ keys s <;> simp [hk]

theorem insert_range_reachable (hash : Key → Nat) (N : Nat) (hN : 1 ≤ N) (l : List Key)
    (s : ADS_set Key) (r : Reachable hash N s) : Reachable hash N (insert_range hash N s l) := by
  unfold insert_range
  induction l generalizing s with
  | nil => exact r
  | cons k l ih =>
    simp only [List.foldl_cons]
    rw [insert__eq_or hash N s k (r.inv hN)]
    exact ih _ (Reachable.step_insert k r)

theorem ctor_ilist_reachable (hash : Key → Nat) (N : Nat) (hN : 1 ≤ N) (l : List Key) :
    Reachable hash N (ctor_ilist hash N l) :=
  insert_range_reachable hash N hN l _ Reachable.init

theorem insert_present (hash : Key → Nat) (N : Nat) (s : ADS_set Key) (k : Key)
    (inv : Inv hash N s) (hk : k ∈ keys s) :
    insert hash N s k = (s, find hash s k, false) := by
  have : ¬ Iterator.eq (find hash s k) (end_ s) = true :=
    fun e => ((find_eq_end_iff inv k).mp e) hk
  unfold insert
  simp only
  rw [if_neg this]

theorem find_absent (hash : Key → Nat) (N : Nat) (s : ADS_set Key) (k : Key)
    (inv : Inv hash N s) (hk : k ∉ keys s) : find hash s k = end_ s := by
  unfold find
  simp only
  rw [if_pos ((find__snd_none_iff inv k).mpr hk)]

theorem count_zero_iff {hash : Key → Nat} {N : Nat} {s : ADS_set Key}
    (inv : Inv hash N s) (k : Key) : count hash s k = 0 ↔ k ∉ keys s := by
  rw [count_eq inv]
  by_cases h1 : k ∈ keys s <;> simp [h1]

theorem count_one_iff {hash : Key → Nat} {N : Nat} {s : ADS_set Key}
    (inv : Inv hash N s) (k : Key) : count hash s k = 1 ↔ k ∈ keys s := by
  rw [count_eq inv]
  by_cases h1 : k ∈ keys s <;> simp [h1]

theorem find__isSome_iff {hash : Key → Nat} {N : Nat} {s : ADS_set Key}
    (inv : Inv hash N s) (k : Key) : (find_ hash s k).2.isSome = true ↔ k ∈ keys s := by
  rw [Option.isSome_iff_ne_none, Ne, find__snd_none_iff inv k, not_not]

/-! ## Contract of the public interface -/

/-- C1. Round trip of insert and find: for a capacity of at least one key per
bucket, any hash function, any state reachable from the default-constructed set
by public insert and erase calls and any key, after `insert(k)` the iterator
`find(k)` differs from `end()`, dereferences to `k`, and `count(k)` is 1,
whether or not the insertion split a chain. -/
theorem insert_find_round_trip (hash : Key → Nat) (N : Nat) (hN : 1 ≤ N) (s : ADS_set Key)
    (r : Reachable hash N s) (k : Key) :
    Iterator.eq (find hash (insert hash N s k).1 k) (end_ (insert hash N s k).1) = false ∧
      Iterator.deref (insert hash N s k).1 (find hash (insert hash N s k).1 k) = .ok k ∧
      count hash (insert hash N s k).1 k = 1 := by
  have inv := r.inv hN
  have inv' := insert_inv hash N hN s k inv
  have hk : k ∈ keys (insert hash N s k).1 :=
    (insert_mem_keys hash N hN s k inv k).mpr (Or.inl rfl)
  refine ⟨?_, deref_find inv' k hk, (count_one_iff inv' k).mpr hk⟩
  exact Bool.eq_false_iff.mpr (fun e => (find_eq_end_iff inv' k).mp e hk)

/-- Instance of C1 with identity hash and two slots per bucket: inserting 3
after 1 and 2, which splits chain 0. -/
theorem insert_find_round_trip_witness :
    1 ≤ 2 ∧
      Reachable id 2 (insert id 2 (insert id 2 (empty_set : ADS_set Nat) 1).1 2).1 ∧
      (Iterator.eq
          (find id (insert id 2 (insert id 2 (insert id 2 (empty_set : ADS_set Nat) 1).1 2).1 3).1 3)
          (end_ (insert id 2 (insert id 2 (insert id 2 (empty_set : ADS_set Nat) 1).1 2).1 3).1)
          = false ∧
        Iterator.deref
          (insert id 2 (insert id 2 (insert id 2 (empty_set : ADS_set Nat) 1).1 2).1 3).1
          (find id (insert id 2 (insert id 2 (insert id 2 (empty_set : ADS_set Nat) 1).1 2).1 3).1 3)
          = .ok 3 ∧
        count id (insert id 2 (insert id 2 (insert id 2 (empty_set : ADS_set Nat) 1).1 2).1 3).1 3
          = 1) :=
  ⟨by decide, Reachable.step_insert 2 (Reachable.step_insert 1 Reachable.init),
    insert_find_round_trip id 2 (by decide) _
      (Reachable.step_insert 2 (Reachable.step_insert 1 Reachable.init)) 3⟩

/-- C2. Idempotence of insert: in a reachable state, a second `insert(k)` right
after a first one returns the flag `false` and an iterator that dereferences to
`k`, and leaves the state as the first call left it; hence `size()` and the
result of `operator==` against any other set, on either side, are unchanged. -/
theorem insert_twice (hash : Key → Nat) (N : Nat) (hN : 1 ≤ N) (s : ADS_set Key)
    (r : Reachable hash N s) (k : Key) :
    (insert hash N (insert hash N s k).1 k).2.2 = false ∧
      Iterator.deref (insert hash N (insert hash N s k).1 k).1
        (insert hash N (insert hash N s k).1 k).2.1 = .ok k ∧
      (insert hash N (insert hash N s k).1 k).1 = (insert hash N s k).1 ∧
      size (insert hash N (insert hash N s k).1 k).1 = size (insert hash N s k).1 ∧
      (∀ (other : ADS_set Key) (fuel : Nat),
        op_eq hash (insert hash N (insert hash N s k).1 k).1 other fuel
            = op_eq hash (insert hash N s k).1 other fuel ∧
          op_eq hash other (insert hash N (insert hash N s k).1 k).1 fuel
            = op_eq hash other (insert hash N s k).1 fuel) := by
  have inv := r.inv hN
  have inv' := insert_inv hash N hN s k inv
  have hk : k ∈ keys (insert hash N s k).1 :=
    (insert_mem_keys hash N hN s k inv k).mpr (Or.inl rfl)
  rw [insert_present hash N _ k inv' hk]
  exact ⟨rfl, deref_find inv' k hk, rfl, rfl, fun _ _ => ⟨rfl, rfl⟩⟩

/-- Instance of C2: inserting 7 twice into the default-constructed set, one slot
per bucket, identity hash. -/
theorem insert_twice_witness :
    1 ≤ 1 ∧ Reachable id 1 (empty_set : ADS_set Nat) ∧
      (insert id 1 (insert id 1 (empty_set : ADS_set Nat) 7).1 7).2.2 = false ∧
      (insert id 1 (insert id 1 (empty_set : ADS_set Nat) 7).1 7).1
        = (insert id 1 (empty_set : ADS_set Nat) 7).1 :=
  ⟨by decide, Reachable.init,
    (insert_twice id 1 (by decide) (empty_set : ADS_set Nat) Reachable.init 7).1,
    (insert_twice id 1 (by decide) (empty_set : ADS_set Nat) Reachable.init 7).2.2.1⟩

/-- C3. Cardinality: after any finite sequence of public insert and erase calls
on the default-constructed set, `size()` is the cardinality of the mathematical
set obtained from the empty set by the same insertions and removals, and the
traversal from `begin()` to `end()` yields exactly `size()` keys, pairwise
distinct, which are the members of that mathematical set. -/
theorem size_eq_card (hash : Key → Nat) (N : Nat) (hN : 1 ≤ N) (ops : List (Op Key))
    (fuel : Nat) (hf : fuel_bound (run hash N ops) ≤ fuel) :
    size (run hash N ops) = (model ops).card ∧
      ∃ l, to_list (run hash N ops) fuel = some l ∧ l.length = size (run hash N ops) ∧
        l.Nodup ∧ ∀ x, x ∈ l ↔ x ∈ model ops := by
  have inv := (run_reachable hash N ops).inv hN
  have hm := run_model hash N hN ops
  have hcard : (model ops).card = (keys (run hash N ops)).length := by
    rw [← List.toFinset_card_of_nodup inv.nodup]
    congr 1
    ext x
    rw [List.mem_toFinset, hm]
  refine ⟨?_, keys (run hash N ops), to_list_spec inv fuel hf, ?_, inv.nodup, hm⟩
  · rw [hcard]; exact inv.card
  · exact inv.card.symm

/-- Instance of C3: insert 1, 2, 3, then erase 2, two slots per bucket. -/
theorem size_eq_card_witness :
    1 ≤ 2 ∧
      fuel_bound (run id 2 [Op.insert 1, Op.insert 2, Op.insert 3, Op.erase 2]) ≤ 10 ∧
      size (run id 2 [Op.insert 1, Op.insert 2, Op.insert 3, Op.erase 2])
        = (model [Op.insert 1, Op.insert 2, Op.insert 3, Op.erase 2]).card ∧
      to_list (run id 2 [Op.insert 1, Op.insert 2, Op.insert 3, Op.erase 2]) 10
        = some [1, 3] :=
  ⟨by decide, by decide,
    (size_eq_card id 2 (by decide) [Op.insert 1, Op.insert 2, Op.insert 3, Op.erase 2] 10
      (by decide)).1,
    by decide⟩

/-- C4. Erase correctness: in a reachable state, erasing an absent key returns 0
and leaves `size()` unchanged; erasing a present key returns 1, decreases
`size()` by exactly 1, and afterwards `count(k)` is 0 and `find(k)` is the end
iterator. -/
theorem erase_correct (hash : Key → Nat) (N : Nat) (hN : 1 ≤ N) (s : ADS_set Key)
    (r : Reachable hash N s) (k : Key) :
    (count hash s k = 0 →
        (erase hash s k).2 = 0 ∧ size (erase hash s k).1 = size s) ∧
      (count hash s k = 1 →
        (erase hash s k).2 = 1 ∧ size (erase hash s k).1 + 1 = size s ∧
          count hash (erase hash s k).1 k = 0 ∧
          find hash (erase hash s k).1 k = end_ (erase hash s k).1 ∧
          Iterator.eq (find hash (erase hash s k).1 k) (end_ (erase hash s k).1) = true) := by
  have inv := r.inv hN
  constructor
  · intro h0
    rw [erase_absent hash N s k inv ((count_zero_iff inv k).mp h0)]
    exact ⟨rfl, rfl⟩
  · intro h1
    have hk := (count_one_iff inv k).mp h1
    obtain ⟨e1, inv', -, hc⟩ := erase_spec hash N s k inv hk
    have hnk : k ∉ keys (erase hash s k).1 :=
      fun hx => ((erase_mem_keys hash N s k inv k).mp hx).1 rfl
    exact ⟨e1, hc, (count_zero_iff inv' k).mpr hnk, find_absent hash N _ k inv' hnk,
      (find_eq_end_iff inv' k).mpr hnk⟩

/-- Instance of C4: erasing 2 from the set holding 1 and 2. -/
theorem erase_correct_witness :
    1 ≤ 2 ∧ Reachable id 2 (insert id 2 (insert id 2 (empty_set : ADS_set Nat) 1).1 2).1 ∧
      count id (insert id 2 (insert id 2 (empty_set : ADS_set Nat) 1).1 2).1 2 = 1 ∧
      (erase id (insert id 2 (insert id 2 (empty_set : ADS_set Nat) 1).1 2).1 2).2 = 1 :=
  ⟨by decide, Reachable.step_insert 2 (Reachable.step_insert 1 Reachable.init), by decide,
    ((erase_correct id 2 (by decide) _
      (Reachable.step_insert 2 (Reachable.step_insert 1 Reachable.init)) 2).2 (by decide)).1⟩

/-- C5. Erase leaves the membership of every other key unchanged: in a reachable
state, for keys `k'` and `k` with `k'` different from `k`, `count(k')` after
`erase(k)` equals `count(k')` before it. -/
theorem erase_frame (hash : Key → Nat) (N : Nat) (hN : 1 ≤ N) (s : ADS_set Key)
    (r : Reachable hash N s) (k k' : Key) (hne : k' ≠ k) :
    count hash (erase hash s k).1 k' = count hash s k' := by
  have inv := r.inv hN
  have inv' := erase_inv hash N s k inv
  rw [count_eq inv', count_eq inv]
  have := erase_mem_keys hash N s k inv k'
  by_cases h1 : k' ∈ keys s
  · rw [if_pos h1, if_pos (this.mpr ⟨hne, h1⟩)]
  · rw [if_neg h1, if_neg (fun hx => h1 (this.mp hx).2)]

/-- Instance of C5, the scenario of the specification: two slots per bucket,
identity hash, insert 10, 20, 30, 40, 50 and erase 30; then `count(30)` is 0,
`size()` is 4 and 10, 20, 40, 50 are still found. -/
theorem erase_frame_witness :
    1 ≤ 2 ∧
      Reachable id 2
        (run id 2 [Op.insert 10, Op.insert 20, Op.insert 30, Op.insert 40, Op.insert 50]) ∧
      (10 : Nat) ≠ 30 ∧
      count id (erase id
        (run id 2 [Op.insert 10, Op.insert 20, Op.insert 30, Op.insert 40, Op.insert 50])
        30).1 10
        = count id
          (run id 2 [Op.insert 10, Op.insert 20, Op.insert 30, Op.insert 40, Op.insert 50]) 10 ∧
      count id (erase id
        (run id 2 [Op.insert 10, Op.insert 20, Op.insert 30, Op.insert 40, Op.insert 50])
        30).1 30 = 0 ∧
      size (erase id
        (run id 2 [Op.insert 10, Op.insert 20, Op.insert 30, Op.insert 40, Op.insert 50])
        30).1 = 4 ∧
      [10, 20, 40, 50].map (count id (erase id
        (run id 2 [Op.insert 10, Op.insert 20, Op.insert 30, Op.insert 40, Op.insert 50])
        30).1) = [1, 1, 1, 1] :=
  ⟨by decide, run_reachable id 2 _, by decide,
    erase_frame id 2 (by decide) _ (run_reachable id 2 _) 30 10 (by decide),
    by decide, by decide, by decide⟩

/-- C6. A split never loses or duplicates keys: in a reachable state, when the
insertion of an absent key raises `split_signal`, so that the public insert runs
`split()` on the state reached by the chain walk and the write, every key that
`find_` located in that state is located by `find_` after the split, the keys
in the occupied slots after the split are pairwise distinct, and `curr_size`,
restored from the snapshot taken before the split, equals the number of occupied
slots over all chains after the split. -/
theorem split_keeps_keys (hash : Key → Nat) (N : Nat) (hN : 1 ≤ N) (s : ADS_set Key)
    (r : Reachable hash N s) (k : Key) (habs : count hash s k = 0)
    (hsig : (insert_core hash N s k).2 = true) :
    (insert hash N s k).1 = split hash N (insert_core hash N s k).1 ∧
      (∀ x, (find_ hash (insert_core hash N s k).1 x).2.isSome = true →
        (find_ hash (split hash N (insert_core hash N s k).1) x).2.isSome = true) ∧
      (keys (split hash N (insert_core hash N s k).1)).Nodup ∧
      (split hash N (insert_core hash N s k).1).curr_size
        = (insert_core hash N s k).1.curr_size ∧
      (split hash N (insert_core hash N s k).1).curr_size
        = (keys (split hash N (insert_core hash N s k).1)).length := by
  have inv := r.inv hN
  have hk := (count_zero_iff inv k).mp habs
  obtain ⟨w, hlt, -, -, inv1⟩ := insert_core_spec hash N hN s k inv hk
  obtain ⟨w2, hlt2, p2, hc2, -⟩ := split_spec hash N hN _ w hlt
  have inv2 : Inv hash N (split hash N (insert_core hash N s k).1) :=
    ⟨Or.inr ⟨w2, hlt2⟩, p2.nodup_iff.mpr inv1.nodup, by rw [hc2, inv1.card, p2.length_eq]⟩
  refine ⟨?_, ?_, inv2.nodup, hc2, inv2.card⟩
  · rw [insert_state hash N s k inv, if_neg hk]
    unfold insert_
    simp [hsig]
  · intro x hx
    rw [find__isSome_iff inv1] at hx
    rw [find__isSome_iff inv2]
    exact p2.symm.subset hx

/-- Instance of C6: two slots per bucket, identity hash; inserting 3 into the
set holding 1 and 2 overflows chain 0 and splits it. -/
theorem split_keeps_keys_witness :
    1 ≤ 2 ∧ Reachable id 2 (insert id 2 (insert id 2 (empty_set : ADS_set Nat) 1).1 2).1 ∧
      count id (insert id 2 (insert id 2 (empty_set : ADS_set Nat) 1).1 2).1 3 = 0 ∧
      (insert_core id 2 (insert id 2 (insert id 2 (empty_set : ADS_set Nat) 1).1 2).1 3).2
        = true ∧
      (keys (split id 2
        (insert_core id 2 (insert id 2 (insert id 2 (empty_set : ADS_set Nat) 1).1 2).1 3).1)).Nodup ∧
      keys (split id 2
        (insert_core id 2 (insert id 2 (insert id 2 (empty_set : ADS_set Nat) 1).1 2).1 3).1)
        = [2, 1, 3] :=
  ⟨by decide, Reachable.step_insert 2 (Reachable.step_insert 1 Reachable.init), by decide,
    by decide,
    (split_keeps_keys id 2 (by decide) _
      (Reachable.step_insert 2 (Reachable.step_insert 1 Reachable.init)) 3 (by decide)
      (by decide)).2.2.1,
    by decide⟩

/-- C7. Order-independent set equality: for two states reachable from the
default-constructed set by insert and erase calls, `operator==` returns, and it
returns true exactly when both hold the same keys, that is `a.count(k)` equals
`b.count(k)` for every key `k`. -/
theorem op_eq_iff_same_keys (hash : Key → Nat) (N : Nat) (hN : 1 ≤ N) (a b : ADS_set Key)
    (ra : Reachable hash N a) (rb : Reachable hash N b) (fuel : Nat)
    (hf : fuel_bound b ≤ fuel) :
    ∃ res, op_eq hash a b fuel = some res ∧
      (res = true ↔ ∀ k, count hash a k = count hash b k) :=
  op_eq_iff a b (ra.inv hN) (rb.inv hN) fuel hf

/-- Instance of C7, the scenario of the specification: `a{1,2,3} == b{3,2,1}`
with two slots per bucket and identity hash, although the two directories
differ. -/
theorem op_eq_iff_same_keys_witness :
    1 ≤ 2 ∧ Reachable id 2 (ctor_ilist id 2 [1, 2, 3]) ∧
      Reachable id 2 (ctor_ilist id 2 [3, 2, 1]) ∧
      fuel_bound (ctor_ilist id 2 [3, 2, 1]) ≤ 7 ∧
      (∃ res, op_eq id (ctor_ilist id 2 [1, 2, 3]) (ctor_ilist id 2 [3, 2, 1]) 7 = some res ∧
        (res = true ↔ ∀ k, count id (ctor_ilist id 2 [1, 2, 3]) k
          = count id (ctor_ilist id 2 [3, 2, 1]) k)) ∧
      op_eq id (ctor_ilist id 2 [1, 2, 3]) (ctor_ilist id 2 [3, 2, 1]) 7 = some true ∧
      (ctor_ilist id 2 [1, 2, 3]).table ≠ (ctor_ilist id 2 [3, 2, 1]).table :=
  ⟨by decide, ctor_ilist_reachable id 2 (by decide) _, ctor_ilist_reachable id 2 (by decide) _,
    by decide,
    op_eq_iff_same_keys id 2 (by decide) _ _ (ctor_ilist_reachable id 2 (by decide) _)
      (ctor_ilist_reachable id 2 (by decide) _) 7 (by decide),
    by decide, by decide⟩

/-- C8. A copy is equal to its original: for a reachable state `s`, the copy
constructor returns a set `c` with `c == s` and `s == c`, with `size()` equal to
that of `s`, and with `c.count(k)` equal to `s.count(k)` for every key `k`. -/
theorem copy_equal (hash : Key → Nat) (N : Nat) (hN : 1 ≤ N) (s : ADS_set Key)
    (r : Reachable hash N s) (fuel : Nat) (hf : fuel_bound s ≤ fuel) :
    ∃ c, copy_ctor hash N s fuel = some c ∧
      (∀ f, fuel_bound s ≤ f → op_eq hash c s f = some true) ∧
      (∀ f, fuel_bound c ≤ f → op_eq hash s c f = some true) ∧
      size c = size s ∧ ∀ k, count hash c k = count hash s k := by
  have inv := r.inv hN
  obtain ⟨c, e, invc, p, hcs⟩ := copy_ctor_spec hN s inv fuel hf
  have hcount : ∀ k, count hash c k = count hash s k := by
    intro k
    rw [count_eq_iff_mem invc inv]; exact p.mem_iff
  refine ⟨c, e, ?_, ?_, hcs, hcount⟩
  · intro f hf'
    obtain ⟨res, e1, e2⟩ := op_eq_iff c s invc inv f hf'
    rw [e1, e2.mpr hcount]
  · intro f hf'
    obtain ⟨res, e1, e2⟩ := op_eq_iff s c inv invc f hf'
    rw [e1, e2.mpr (fun k => (hcount k).symm)]

/-- Instance of C8: copying the set built from 10, 20, 30, 40, 50 with 30 erased
(two slots per bucket, identity hash); the copy packs chain 2 into one bucket. -/
theorem copy_equal_witness :
    1 ≤ 2 ∧
      Reachable id 2
        (run id 2 [Op.insert 10, Op.insert 20, Op.insert 30, Op.insert 40, Op.insert 50,
          Op.erase 30]) ∧
      fuel_bound
        (run id 2 [Op.insert 10, Op.insert 20, Op.insert 30, Op.insert 40, Op.insert 50,
          Op.erase 30]) ≤ 10 ∧
      (Option.map ADS_set.table (copy_ctor id 2
        (run id 2 [Op.insert 10, Op.insert 20, Op.insert 30, Op.insert 40, Op.insert 50,
          Op.erase 30]) 10)) = some [[[20, 40]], [[]], [[10, 50]]] ∧
      ∃ c, copy_ctor id 2
        (run id 2 [Op.insert 10, Op.insert 20, Op.insert 30, Op.insert 40, Op.insert 50,
          Op.erase 30]) 10 = some c ∧
        size c = size
          (run id 2 [Op.insert 10, Op.insert 20, Op.insert 30, Op.insert 40, Op.insert 50,
            Op.erase 30]) :=
  ⟨by decide, run_reachable id 2 _, by decide, by decide,
    (copy_equal id 2 (by decide) _ (run_reachable id 2 _) 10 (by decide)).elim
      (fun c hc => ⟨c, hc.1, hc.2.2.2.1⟩)⟩

/-- C9. Iteration order: in a reachable state the directory list has
`table_size` entries, and the keys produced from `begin()` by `operator++`
until the iterator equals `end()` are the concatenation, over the directory
indices in increasing order, of the buckets of each chain from head to tail, of
the occupied slots of each bucket in slot order; empty buckets contribute
nothing.  The iterator reached from `begin()` by `m` increments stands on the
key number `m` of that concatenation and differs from `end()`, and the one
reached by as many increments as there are keys equals `end()`. -/
theorem iteration_order (hash : Key → Nat) (N : Nat) (hN : 1 ≤ N) (s : ADS_set Key)
    (r : Reachable hash N s) (fuel : Nat) (hf : fuel_bound s ≤ fuel) :
    to_list s fuel = some s.table.flatten.flatten ∧ s.table.length = s.table_size ∧
      ∃ b, begin s fuel = some b ∧
        (∀ (m : Nat) (hm : m < s.table.flatten.flatten.length),
          ∃ it, Iterator.advance s fuel m b = some it ∧ Iterator.eq it (end_ s) = false ∧
            Iterator.deref s it = .ok (s.table.flatten.flatten.get ⟨m, hm⟩)) ∧
        ∃ e, Iterator.advance s fuel s.table.flatten.flatten.length b = some e ∧
          Iterator.eq e (end_ s) = true :=
  ⟨to_list_spec (r.inv hN) fuel hf, (r.inv hN).len, advance_positions (r.inv hN) fuel hf⟩

/-- Instance of C9: the set built from 10, 20, 30, 40, 50 with 30 erased has the
directory `[[20, 40]]`, `[[]]`, `[[10], [50]]` and is traversed as
20, 40, 10, 50. -/
theorem iteration_order_witness :
    1 ≤ 2 ∧
      Reachable id 2
        (run id 2 [Op.insert 10, Op.insert 20, Op.insert 30, Op.insert 40, Op.insert 50,
          Op.erase 30]) ∧
      fuel_bound
        (run id 2 [Op.insert 10, Op.insert 20, Op.insert 30, Op.insert 40, Op.insert 50,
          Op.erase 30]) ≤ 10 ∧
      (run id 2 [Op.insert 10, Op.insert 20, Op.insert 30, Op.insert 40, Op.insert 50,
          Op.erase 30]).table = [[[20, 40]], [[]], [[10], [50]]] ∧
      to_list
        (run id 2 [Op.insert 10, Op.insert 20, Op.insert 30, Op.insert 40, Op.insert 50,
          Op.erase 30]) 10
        = some (run id 2 [Op.insert 10, Op.insert 20, Op.insert 30, Op.insert 40, Op.insert 50,
          Op.erase 30]).table.flatten.flatten :=
  ⟨by decide, run_reachable id 2 _, by decide, by decide,
    (iteration_order id 2 (by decide) _ (run_reachable id 2 _) 10 (by decide)).1⟩

/-- C10. Dereferencing fails exactly at the end position: `operator*`, and
likewise `operator->`, raises the runtime error if and only if `key_pos` is null; in a reachable state, for an
absent key `find(k)` is `end()` and dereferencing it raises the runtime error,
and for a present key dereferencing `find(k)` yields `k`. -/
theorem deref_fails_exactly_at_end (hash : Key → Nat) (N : Nat) (hN : 1 ≤ N)
    (s : ADS_set Key) (r : Reachable hash N s) (k : Key) :
    (∀ it : Iterator,
        (Iterator.deref s it = .error IterError.runtime_error ↔ it.key_pos = none) ∧
          (Iterator.arrow it = .error IterError.runtime_error ↔ it.key_pos = none)) ∧
      (count hash s k = 0 →
        find hash s k = end_ s ∧ Iterator.eq (find hash s k) (end_ s) = true ∧
          Iterator.deref s (find hash s k) = .error IterError.runtime_error) ∧
      (count hash s k = 1 → Iterator.deref s (find hash s k) = .ok k) := by
  have inv := r.inv hN
  refine ⟨?_, ?_, ?_⟩
  · intro it
    unfold Iterator.deref Iterator.arrow
    cases hkp : it.key_pos with
    | none => simp
    | some p =>
      obtain ⟨i, j, x⟩ := p
      simp only
      cases ((s.table.getD i []).getD j [])[x]? with
      | none => simp
      | some key => simp
  · intro h0
    have hk := (count_zero_iff inv k).mp h0
    have e := find_absent hash N s k inv hk
    refine ⟨e, (find_eq_end_iff inv k).mpr hk, ?_⟩
    rw [e]; rfl
  · intro h1
    exact deref_find inv k ((count_one_iff inv k).mp h1)

/-- Instance of C10: in the set holding 1 and 2, `find(5)` is the end iterator
and dereferencing it raises, while `find(2)` dereferences to 2. -/
theorem deref_fails_exactly_at_end_witness :
    1 ≤ 2 ∧ Reachable id 2 (insert id 2 (insert id 2 (empty_set : ADS_set Nat) 1).1 2).1 ∧
      count id (insert id 2 (insert id 2 (empty_set : ADS_set Nat) 1).1 2).1 5 = 0 ∧
      Iterator.deref (insert id 2 (insert id 2 (empty_set : ADS_set Nat) 1).1 2).1
        (find id (insert id 2 (insert id 2 (empty_set : ADS_set Nat) 1).1 2).1 5)
        = .error IterError.runtime_error ∧
      Iterator.deref (insert id 2 (insert id 2 (empty_set : ADS_set Nat) 1).1 2).1
        (find id (insert id 2 (insert id 2 (empty_set : ADS_set Nat) 1).1 2).1 2) = .ok 2 :=
  ⟨by decide, Reachable.step_insert 2 (Reachable.step_insert 1 Reachable.init), by decide,
    ((deref_fails_exactly_at_end id 2 (by decide) _
      (Reachable.step_insert 2 (Reachable.step_insert 1 Reachable.init)) 5).2.1
      (by decide)).2.2,
    rfl⟩

/-! ## States reachable with `clear` -/

theorem clear_eq (s : ADS_set Key) : clear s = (empty_set : ADS_set Key) := rfl

theorem ReachableC.invariant {hash : Key → Nat} {N : Nat} (hN : 1 ≤ N) {s : ADS_set Key}
    (r : ReachableC hash N s) : Inv hash N s := by
  induction r with
  | init => exact empty_set_inv hash N
  | step_insert key _ ih => exact insert_inv hash N hN _ key ih
  | step_erase key _ ih => exact erase_inv hash N _ key ih
  | step_clear _ _ => rw [clear_eq]; exact empty_set_inv hash N

theorem Reachable.toC {hash : Key → Nat} {N : Nat} {s : ADS_set Key}
    (r : Reachable hash N s) : ReachableC hash N s := by
  induction r with
  | init => exact ReachableC.init
  | step_insert key _ ih => exact ReachableC.step_insert key ih
  | step_erase key _ ih => exact ReachableC.step_erase key ih

/-! ## The position written by `insert_` -/

theorem insert_place_single_full (N : Nat) (b : List Key) (hfull : b.length = N) :
    insert_place N [b] = (1, 0) := by
  simp [insert_place, bucket_isfull, hfull]

theorem insert_place_single_free (N : Nat) (b : List Key) (hfull : b.length ≠ N) :
    insert_place N [b] = (0, b.length) := by
  simp [insert_place, bucket_isfull, hfull]

theorem insert_place_cons_full (N : Nat) (b b' : List Key) (o : List (List Key))
    (hfull : b.length = N) :
    insert_place N (b :: b' :: o) =
      ((insert_place N (b' :: o)).1 + 1, (insert_place N (b' :: o)).2) := by
  simp [insert_place, bucket_isfull, hfull]

theorem insert_place_cons_free (N : Nat) (b b' : List Key) (o : List (List Key))
    (hfull : b.length ≠ N) :
    insert_place N (b :: b' :: o) = (0, b.length) := by
  simp [insert_place, bucket_isfull, hfull]

theorem insert_place_findIdx (N : Nat) (c : List (List Key)) (hne : c ≠ []) :
    (insert_place N c).1 = c.findIdx (fun b => !bucket_isfull N b) := by
  induction c with
  | nil => exact absurd rfl hne
  | cons b rest ih =>
    cases rest with
    | nil =>
      by_cases hfull : b.length = N
      · rw [insert_place_single_full N b hfull]
        simp [List.findIdx_cons, bucket_isfull, hfull]
      · rw [insert_place_single_free N b hfull]
        have hb : (b.length == N) = false := by simpa using hfull
        simp [List.findIdx_cons, bucket_isfull, hb]
    | cons b' o =>
      by_cases hfull : b.length = N
      · rw [insert_place_cons_full N b b' o hfull, List.findIdx_cons]
        simp only [bucket_isfull, hfull, beq_self_eq_true, Bool.not_true, cond_false]
        have := ih (by simp)
        simp only [bucket_isfull] at this
        rw [this]
      · rw [insert_place_cons_free N b b' o hfull, List.findIdx_cons]
        have hb : (b.length == N) = false := by simpa using hfull
        simp [bucket_isfull, hb]

theorem insert_place_le (N : Nat) (c : List (List Key)) (hne : c ≠ []) :
    (insert_place N c).1 ≤ c.length := by
  rw [insert_place_findIdx N c hne]
  exact List.findIdx_le_length _

theorem insert_place_slot (N : Nat) (c : List (List Key)) (hne : c ≠ []) :
    (insert_place N c).2 = (c.getD (insert_place N c).1 []).length := by
  induction c with
  | nil => exact absurd rfl hne
  | cons b rest ih =>
    cases rest with
    | nil =>
      by_cases hfull : b.length = N
      · rw [insert_place_single_full N b hfull]; simp
      · rw [insert_place_single_free N b hfull]; simp
    | cons b' o =>
      by_cases hfull : b.length = N
      · rw [insert_place_cons_full N b b' o hfull]
        simp only [List.getD_cons_succ]
        exact ih (by simp)
      · rw [insert_place_cons_free N b b' o hfull]; simp

theorem insert_place_slot_lt (N : Nat) (hN : 1 ≤ N) (c : List (List Key)) (hne : c ≠ [])
    (hcap : ∀ b ∈ c, b.length ≤ N) : (insert_place N c).2 < N := by
  induction c with
  | nil => exact absurd rfl hne
  | cons b rest ih =>
    have hb : b.length ≤ N := hcap b (by simp)
    cases rest with
    | nil =>
      by_cases hfull : b.length = N
      · rw [insert_place_single_full N b hfull]; exact hN
      · rw [insert_place_single_free N b hfull]; simp only; omega
    | cons b' o =>
      by_cases hfull : b.length = N
      · rw [insert_place_cons_full N b b' o hfull]
        exact ih (by simp) (fun x hx => hcap x (List.mem_cons_of_mem _ hx))
      · rw [insert_place_cons_free N b b' o hfull]; simp only; omega

theorem insert_chain_signal (N : Nat) (k : Key) (c : List (List Key)) (hne : c ≠ []) :
    (insert_chain N k c).2 = decide ((insert_place N c).1 = c.length) := by
  induction c with
  | nil => exact absurd rfl hne
  | cons b rest ih =>
    cases rest with
    | nil =>
      by_cases hfull : b.length = N
      · rw [insert_chain_single_full N k b hfull, insert_place_single_full N b hfull]; simp
      · rw [insert_chain_single_free N k b hfull, insert_place_single_free N b hfull]; simp
    | cons b' o =>
      by_cases hfull : b.length = N
      · rw [insert_chain_cons_full N k b b' o hfull, insert_place_cons_full N b b' o hfull]
        simp only
        rw [ih (by simp)]
        simp
      · rw [insert_chain_cons_free N k b b' o hfull, insert_place_cons_free N b b' o hfull]
        simp

theorem insert_chain_eq (N : Nat) (k : Key) (c : List (List Key)) (hne : c ≠ []) :
    (insert_chain N k c).1 =
      if (insert_place N c).1 < c.length then
        c.set (insert_place N c).1 (c.getD (insert_place N c).1 [] ++ [k])
      else c ++ [[k]] := by
  induction c with
  | nil => exact absurd rfl hne
  | cons b rest ih =>
    cases rest with
    | nil =>
      by_cases hfull : b.length = N
      · rw [insert_chain_single_full N k b hfull, insert_place_single_full N b hfull]; simp
      · rw [insert_chain_single_free N k b hfull, insert_place_single_free N b hfull]; simp
    | cons b' o =>
      by_cases hfull : b.length = N
      · rw [insert_chain_cons_full N k b b' o hfull, insert_place_cons_full N b b' o hfull]
        simp only
        rw [ih (by simp)]
        by_cases hlt : (insert_place N (b' :: o)).1 < (b' :: o).length
        · have hlt' : (insert_place N (b' :: o)).1 + 1 < (b :: b' :: o).length := by
            simp only [List.length_cons] at hlt ⊢; omega
          rw [if_pos hlt, if_pos hlt']
          simp
        · have hlt' : ¬ (insert_place N (b' :: o)).1 + 1 < (b :: b' :: o).length := by
            simp only [List.length_cons] at hlt ⊢; omega
          rw [if_neg hlt, if_neg hlt']
          simp
      · rw [insert_chain_cons_free N k b b' o hfull, insert_place_cons_free N b b' o hfull]
        simp

theorem insert_chain_length (N : Nat) (k : Key) (c : List (List Key)) (hne : c ≠ []) :
    (insert_chain N k c).1.length = c.length + (if (insert_chain N k c).2 then 1 else 0) := by
  rw [insert_chain_eq N k c hne, insert_chain_signal N k c hne]
  have hle := insert_place_le N c hne
  by_cases hlt : (insert_place N c).1 < c.length
  · rw [if_pos hlt]
    have : (insert_place N c).1 ≠ c.length := by omega
    simp [this]
  · rw [if_neg hlt]
    have : (insert_place N c).1 = c.length := by omega
    simp [this]

theorem insert_chain_stored (N : Nat) (k : Key) (c : List (List Key)) (hne : c ≠ []) :
    (((insert_chain N k c).1.getD (insert_place N c).1 []))[(insert_place N c).2]? = some k := by
  rw [insert_chain_eq N k c hne, insert_place_slot N c hne]
  have hle := insert_place_le N c hne
  by_cases hlt : (insert_place N c).1 < c.length
  · rw [if_pos hlt, getD_set_eq _ _ _ _ hlt]
    rw [List.getElem?_append_right (le_refl _)]
    simp
  · rw [if_neg hlt]
    have e : (insert_place N c).1 = c.length := by omega
    rw [e, getD_append_cons c [k] [] [], List.getD_eq_default _ _ (le_refl _)]
    simp

/-! ## Where a split puts the keys -/

theorem h_eq_nts (hash : Key → Nat) (s : ADS_set Key) (k : Key)
    (hlt : s.next_to_split < 2 ^ s.d) (hk : h hash s k = s.next_to_split) :
    hash k % 2 ^ s.d = s.next_to_split := by
  unfold h at hk
  simp only at hk
  split_ifs at hk with hc
  · rcases mod_two_pow_succ (hash k) s.d with e | e <;> omega
  · exact hk

theorem h_of_lt (hash : Key → Nat) (s : ADS_set Key) (k : Key)
    (hc : hash k % 2 ^ s.d < s.next_to_split) : h hash s k = hash k % 2 ^ (s.d + 1) := by
  unfold h
  simp only
  rw [if_pos hc]

theorem foldl_insert_core_chain (hash : Key → Nat) (N : Nat) (hN : 1 ≤ N) (l : List Key)
    (s : ADS_set Key) (w : WF hash N s) (i : Nat) :
    ((l.foldl (fun acc key => (insert_core hash N acc key).1) s).table.getD i []).flatten.Perm
        (l.filter (fun k => decide (h hash s k = i)) ++ (s.table.getD i []).flatten) ∧
      ((∀ k ∈ l, h hash s k ≠ i) →
        (l.foldl (fun acc key => (insert_core hash N acc key).1) s).table.getD i []
          = s.table.getD i []) := by
  induction l generalizing s with
  | nil => simp
  | cons k l ih =>
    have w' := insert_core_wf hash N hN s k w
    have f := insert_core_fields hash N s k w.table_size_ne
    have hh : ∀ x, h hash (insert_core hash N s k).1 x = h hash s x :=
      fun x => h_congr hash f.1 f.2.1 x
    have hfun : (fun x => decide (h hash (insert_core hash N s k).1 x = i))
        = (fun x => decide (h hash s x = i)) := by
      funext x; rw [hh x]
    obtain ⟨r1, r2⟩ := ih _ w'
    rw [hfun] at r1
    simp only [List.foldl_cons]
    constructor
    · by_cases hk : h hash s k = i
      · subst hk
        have hc := insert_core_chain_eq hash N hN s k w
        rw [List.filter_cons, if_pos (by simp)]
        refine r1.trans ?_
        refine (hc.append_left _).trans ?_
        simp
      · have hc := insert_core_chain_ne hash N s k w.table_size_ne i (Ne.symm hk)
        rw [hc] at r1
        rw [List.filter_cons, if_neg (by simpa using hk)]
        exact r1
    · intro hall
      have hk : h hash s k ≠ i := hall k (by simp)
      rw [r2 (fun x hx => by rw [hh x]; exact hall x (List.mem_cons_of_mem _ hx))]
      exact insert_core_chain_ne hash N s k w.table_size_ne i (Ne.symm hk)

theorem split_start_chain (s : ADS_set Key) (i : Nat) (hi : i ≠ s.next_to_split)
    (hi2 : i ≠ s.table.length) :
    (split_start s).table.getD i [] = s.table.getD i [] := by
  unfold split_start
  simp only
  rw [getD_set_ne _ _ _ _ _ (Ne.symm hi)]
  by_cases hlt : i < s.table.length
  · exact List.getD_append _ _ _ _ hlt
  · rw [List.getD_eq_default _ _ (by simp; omega), List.getD_eq_default _ _ (by omega)]

theorem split_start_chain_nts (s : ADS_set Key) (hi : s.next_to_split < s.table.length) :
    (split_start s).table.getD s.next_to_split [] = [[]] := by
  unfold split_start
  simp only
  exact getD_set_eq _ _ _ _ (by simp; omega)

theorem split_start_chain_last (s : ADS_set Key) (hi : s.next_to_split < s.table.length) :
    (split_start s).table.getD s.table.length [] = [[]] := by
  unfold split_start
  simp only
  rw [getD_set_ne _ _ _ _ _ (by omega)]
  exact getD_append_cons _ _ _ _

theorem split_chains (hash : Key → Nat) (N : Nat) (hN : 1 ≤ N) (s : ADS_set Key)
    (w : WF hash N s) (hlt : s.next_to_split < 2 ^ s.d) :
    ((split hash N s).table.getD s.next_to_split []).flatten.Perm
        ((s.table.getD s.next_to_split []).flatten.filter
          (fun k => decide (hash k % 2 ^ (s.d + 1) = s.next_to_split))) ∧
      ((split hash N s).table.getD (2 ^ s.d + s.next_to_split) []).flatten.Perm
        ((s.table.getD s.next_to_split []).flatten.filter
          (fun k => decide (hash k % 2 ^ (s.d + 1) = s.next_to_split + 2 ^ s.d))) ∧
      (∀ i, i ≠ s.next_to_split → i ≠ 2 ^ s.d + s.next_to_split →
        (split hash N s).table.getD i [] = s.table.getD i []) := by
  have hsz := w.size_eq
  have hlen := w.len
  have hi : s.next_to_split < s.table.length := by rw [hlen]; omega
  have w1 := split_start_wf hash N s w hlt
  have hfold := foldl_insert_core hash N hN (s.table.getD s.next_to_split []).flatten _ w1
  have htab : (split hash N s).table
      = ((s.table.getD s.next_to_split []).flatten.foldl
          (fun acc key => (insert_core hash N acc key).1) (split_start s)).table := by
    have hfold' := hfold.1
    rw [← rehash_keys_eq_foldl] at hfold'
    rw [split_eq, (split_finish_spec hash N s.curr_size _ hfold').2.2.2.2.2,
      rehash_keys_eq_foldl]
  have hmod : ∀ k ∈ (s.table.getD s.next_to_split []).flatten,
      hash k % 2 ^ s.d = s.next_to_split :=
    fun k hk => h_eq_nts hash s k hlt (w.placed _ k hk)
  have hh : ∀ k ∈ (s.table.getD s.next_to_split []).flatten,
      h hash (split_start s) k = hash k % 2 ^ (s.d + 1) := by
    intro k hk
    have hm := hmod k hk
    have : hash k % 2 ^ (split_start s).d < (split_start s).next_to_split := by
      show hash k % 2 ^ s.d < s.next_to_split + 1
      omega
    exact h_of_lt hash (split_start s) k this
  rw [htab]
  refine ⟨?_, ?_, ?_⟩
  · have := (foldl_insert_core_chain hash N hN (s.table.getD s.next_to_split []).flatten
      (split_start s) w1 s.next_to_split).1
    rw [split_start_chain_nts s hi] at this
    simp only [List.flatten_cons, List.flatten_nil, List.append_nil] at this
    refine this.trans ?_
    rw [List.filter_congr]
    intro k hk
    rw [hh k hk]
  · have := (foldl_insert_core_chain hash N hN (s.table.getD s.next_to_split []).flatten
      (split_start s) w1 (2 ^ s.d + s.next_to_split)).1
    have e : 2 ^ s.d + s.next_to_split = s.table.length := by rw [hlen, hsz]
    rw [e] at this ⊢
    rw [split_start_chain_last s hi] at this
    simp only [List.flatten_cons, List.flatten_nil, List.append_nil] at this
    refine this.trans ?_
    rw [List.filter_congr]
    intro k hk
    rw [hh k hk]
    congr 1
    apply propext
    rw [← e]
    omega
  · intro i h1 h2
    have e : 2 ^ s.d + s.next_to_split = s.table.length := by rw [hlen, hsz]
    rw [(foldl_insert_core_chain hash N hN (s.table.getD s.next_to_split []).flatten
      (split_start s) w1 i).2 ?_]
    · exact split_start_chain s i h1 (by rw [← e]; exact h2)
    · intro k hk
      rw [hh k hk]
      have hm := hmod k hk
      rcases mod_two_pow_succ (hash k) s.d with e1 | e1 <;> omega

theorem insert_target_of_ne (hash : Key → Nat) (N : Nat) (s : ADS_set Key) (k : Key)
    (hts : s.table_size ≠ 0) :
    insert_target hash N s k =
      (h hash s k, (insert_place N (s.table.getD (h hash s k) [])).1,
        (insert_place N (s.table.getD (h hash s k) [])).2) := by
  simp [insert_target, hts]

theorem insert_target_of_zero (hash : Key → Nat) (N : Nat) (s : ADS_set Key) (k : Key)
    (hts : s.table_size = 0) :
    insert_target hash N s k =
      insert_target hash N { s with table := [[[]]], table_size := 1 } k := by
  simp [insert_target, hts]

theorem WF.chain_at {hash : Key → Nat} {N : Nat} {s : ADS_set Key} (w : WF hash N s)
    (k : Key) :
    s.table.getD (h hash s k) [] ≠ [] ∧ ∀ b ∈ s.table.getD (h hash s k) [], b.length ≤ N := by
  have hm := getD_mem s.table (h hash s k) [] (w.h_lt_length k)
  exact ⟨w.chain_ne _ hm, w.cap _ hm⟩

theorem WF.target_lt {hash : Key → Nat} {N : Nat} (hN : 1 ≤ N) {s : ADS_set Key}
    (w : WF hash N s) (k : Key) : (insert_target hash N s k).2.2 < N := by
  rw [insert_target_of_ne hash N s k w.table_size_ne]
  exact insert_place_slot_lt N hN _ (w.chain_at k).1 (w.chain_at k).2

theorem Inv.slot_lt {hash : Key → Nat} {N : Nat} (hN : 1 ≤ N) {s : ADS_set Key}
    (inv : Inv hash N s) (k : Key) : (insert_target hash N s k).2.2 < N := by
  rcases inv.shape with ⟨-, h0, hd, hn⟩ | ⟨w, -⟩
  · rw [insert_target_of_zero hash N s k h0]
    exact (first_chain_wf hash N s hd hn).target_lt hN k
  · exact w.target_lt hN k

theorem insert_core_stored (hash : Key → Nat) (N : Nat) (s : ADS_set Key) (k : Key)
    (w : WF hash N s) :
    (((insert_core hash N s k).1.table.getD (insert_target hash N s k).1 []).getD
      (insert_target hash N s k).2.1 [])[(insert_target hash N s k).2.2]? = some k := by
  rw [insert_target_of_ne hash N s k w.table_size_ne,
    insert_core_of_ne hash N s k w.table_size_ne]
  simp only
  rw [getD_set_eq _ _ _ _ (w.h_lt_length k)]
  exact insert_chain_stored N k _ (w.chain_at k).1

theorem insert_split_eq {hash : Key → Nat} {N : Nat} {s : ADS_set Key} (inv : Inv hash N s)
    (k : Key) (hk : k ∉ keys s) (hsig : (insert_core hash N s k).2 = true) :
    (insert hash N s k).1 = split hash N (insert_core hash N s k).1 := by
  rw [insert_state hash N s k inv, if_neg hk]
  unfold insert_
  simp [hsig]

theorem insert_nosplit_eq {hash : Key → Nat} {N : Nat} {s : ADS_set Key} (inv : Inv hash N s)
    (k : Key) (hk : k ∉ keys s) (hsig : (insert_core hash N s k).2 = false) :
    (insert hash N s k).1 = (insert_core hash N s k).1 := by
  rw [insert_state hash N s k inv, if_neg hk]
  unfold insert_
  simp [hsig]

theorem split_fields (hash : Key → Nat) (N : Nat) (hN : 1 ≤ N) (s : ADS_set Key)
    (w : WF hash N s) (hlt : s.next_to_split < 2 ^ s.d) :
    (s.next_to_split + 1 = 2 ^ s.d →
        (split hash N s).d = s.d + 1 ∧ (split hash N s).next_to_split = 0) ∧
      (s.next_to_split + 1 ≠ 2 ^ s.d →
        (split hash N s).d = s.d ∧ (split hash N s).next_to_split = s.next_to_split + 1) := by
  have w1 := split_start_wf hash N s w hlt
  obtain ⟨-, hd, hn, -, -, -, -⟩ :=
    foldl_insert_core hash N hN (s.table.getD s.next_to_split []).flatten _ w1
  rw [← rehash_keys_eq_foldl] at hd hn
  have hd' : (rehash_keys hash N (split_start s) (s.table.getD s.next_to_split [])).d = s.d := hd
  have hn' : (rehash_keys hash N (split_start s) (s.table.getD s.next_to_split [])).next_to_split
      = s.next_to_split + 1 := hn
  rw [split_eq]
  unfold split_finish
  simp only
  rw [hd', hn']
  constructor
  · intro e
    rw [if_pos (by omega)]
    exact ⟨rfl, rfl⟩
  · intro e
    rw [if_neg (by omega)]
    exact ⟨rfl, rfl⟩

theorem insert_core_wf_inv (hash : Key → Nat) (N : Nat) (hN : 1 ≤ N) (s : ADS_set Key)
    (k : Key) (inv : Inv hash N s) : WF hash N (insert_core hash N s k).1 := by
  rcases inv.shape with ⟨-, h0, hd, hn⟩ | ⟨w, -⟩
  · rw [insert_core_of_zero hash N s k h0]
    exact insert_core_wf hash N hN _ k (first_chain_wf hash N s hd hn)
  · exact insert_core_wf hash N hN s k w

theorem insert_core_chain_at (hash : Key → Nat) (N : Nat) (s : ADS_set Key) (k : Key)
    (w : WF hash N s) :
    (insert_core hash N s k).1.table.getD (h hash s k) []
        = (insert_chain N k (s.table.getD (h hash s k) [])).1 ∧
      (insert_core hash N s k).2 = (insert_chain N k (s.table.getD (h hash s k) [])).2 := by
  rw [insert_core_of_ne hash N s k w.table_size_ne]
  exact ⟨getD_set_eq _ _ _ _ (w.h_lt_length k), rfl⟩

theorem insert_core_first_free (hash : Key → Nat) (N : Nat) (s : ADS_set Key) (k : Key)
    (w : WF hash N s) (c : List (List Key)) (hc : c = s.table.getD (h hash s k) []) (j : Nat)
    (hj : j = c.findIdx (fun b => !bucket_isfull N b)) :
    (insert_core hash N s k).1.table.getD (h hash s k) []
        = (if j < c.length then c.set j (c.getD j [] ++ [k]) else c ++ [[k]]) ∧
      ((insert_core hash N s k).2 = true ↔ j = c.length) ∧
      (j = c.length ↔ ∀ b ∈ c, bucket_isfull N b = true) ∧
      insert_target hash N s k = (h hash s k, j, (c.getD j []).length) := by
  have hne := (w.chain_at k).1
  rw [← hc] at hne
  have hp := insert_place_findIdx N c hne
  rw [← hj] at hp
  obtain ⟨e1, e2⟩ := insert_core_chain_at hash N s k w
  rw [← hc] at e1 e2
  refine ⟨?_, ?_, ?_, ?_⟩
  · rw [e1, insert_chain_eq N k c hne, hp]
  · rw [e2, insert_chain_signal N k c hne, hp]; simp
  · rw [hj, List.findIdx_eq_length]; simp
  · rw [insert_target_of_ne hash N s k w.table_size_ne, ← hc, insert_place_slot N c hne, hp]

/-! ## Behaviour of the directory -/

/-- C12. Split invariant: in a state reachable by insert and erase calls, when
the insertion of an absent key raises `split_signal`, the public insert returns
the state left by `split()`, and in it `table_size` equals
`2^d + next_to_split`. -/
theorem split_invariant (hash : Key → Nat) (N : Nat) (hN : 1 ≤ N) (s : ADS_set Key)
    (r : Reachable hash N s) (k : Key) (habs : count hash s k = 0)
    (hsig : (insert_core hash N s k).2 = true) :
    (insert hash N s k).1 = split hash N (insert_core hash N s k).1 ∧
      (split hash N (insert_core hash N s k).1).table_size
        = 2 ^ (split hash N (insert_core hash N s k).1).d
          + (split hash N (insert_core hash N s k).1).next_to_split := by
  have inv := r.inv hN
  have hk := (count_zero_iff inv k).mp habs
  obtain ⟨w, hlt, -, -, -⟩ := insert_core_spec hash N hN s k inv hk
  exact ⟨insert_split_eq inv k hk hsig, (split_spec hash N hN _ w hlt).1.size_eq⟩

/-- Instance of C12: two slots per bucket, identity hash; inserting 3 into the
set holding 1 and 2 splits chain 0 and leaves two chains in generation 1. -/
theorem split_invariant_witness :
    1 ≤ 2 ∧ Reachable id 2 (insert id 2 (insert id 2 (empty_set : ADS_set Nat) 1).1 2).1 ∧
      count id (insert id 2 (insert id 2 (empty_set : ADS_set Nat) 1).1 2).1 3 = 0 ∧
      (insert_core id 2 (insert id 2 (insert id 2 (empty_set : ADS_set Nat) 1).1 2).1 3).2
        = true ∧
      (split id 2
          (insert_core id 2 (insert id 2 (insert id 2 (empty_set : ADS_set Nat) 1).1 2).1 3).1).table_size
        = 2 ^ (split id 2
            (insert_core id 2 (insert id 2 (insert id 2 (empty_set : ADS_set Nat) 1).1 2).1 3).1).d
          + (split id 2
            (insert_core id 2 (insert id 2 (insert id 2 (empty_set : ADS_set Nat) 1).1 2).1
              3).1).next_to_split ∧
      (split id 2
          (insert_core id 2 (insert id 2 (insert id 2 (empty_set : ADS_set Nat) 1).1 2).1
            3).1).table_size = 2 :=
  ⟨by decide, Reachable.step_insert 2 (Reachable.step_insert 1 Reachable.init), by decide,
    by decide,
    (split_invariant id 2 (by decide) _
      (Reachable.step_insert 2 (Reachable.step_insert 1 Reachable.init)) 3 (by decide)
      (by decide)).2,
    by decide⟩

/-- Counterexample to C13 as stated: the default-constructed set and a cleared
set are reachable and have `table_size = 0`, while `2^d + next_to_split` is 1. -/
theorem dir_size_counterexample :
    ReachableC id 2 (empty_set : ADS_set Nat) ∧
      ¬ ((empty_set : ADS_set Nat).table_size
          = 2 ^ (empty_set : ADS_set Nat).d + (empty_set : ADS_set Nat).next_to_split) ∧
      ReachableC id 2 (clear (insert id 2 (empty_set : ADS_set Nat) 7).1) ∧
      ¬ ((clear (insert id 2 (empty_set : ADS_set Nat) 7).1).table_size
          = 2 ^ (clear (insert id 2 (empty_set : ADS_set Nat) 7).1).d
            + (clear (insert id 2 (empty_set : ADS_set Nat) 7).1).next_to_split) :=
  ⟨ReachableC.init, by decide, ReachableC.step_clear (ReachableC.step_insert 7 ReachableC.init),
    by decide⟩

/-- C13, amended. In every state reachable from the default-constructed set by
insert, erase and clear calls that has at least one chain, `table_size` equals
`2^d + next_to_split`; a state without chains has `d = 0`, `next_to_split = 0`
and holds no key; and every state returned by an insert satisfies the
equation. -/
theorem dir_size_invariant (hash : Key → Nat) (N : Nat) (hN : 1 ≤ N) (s : ADS_set Key)
    (r : ReachableC hash N s) :
    (s.table_size ≠ 0 → s.table_size = 2 ^ s.d + s.next_to_split) ∧
      (s.table_size = 0 → s.d = 0 ∧ s.next_to_split = 0 ∧ s.curr_size = 0) ∧
      (∀ k, (insert hash N s k).1.table_size
        = 2 ^ (insert hash N s k).1.d + (insert hash N s k).1.next_to_split) := by
  have inv := r.invariant hN
  refine ⟨?_, ?_, ?_⟩
  · intro hne
    rcases inv.shape with ⟨-, h0, -, -⟩ | ⟨w, -⟩
    · exact absurd h0 hne
    · exact w.size_eq
  · intro h0
    rcases inv.shape with ⟨ht, -, hd, hn⟩ | ⟨w, -⟩
    · refine ⟨hd, hn, ?_⟩
      rw [inv.card]; simp [keys, ht]
    · exact absurd h0 w.table_size_ne
  · intro k
    have inv' := insert_inv hash N hN s k inv
    have hk : k ∈ keys (insert hash N s k).1 :=
      (insert_mem_keys hash N hN s k inv k).mpr (Or.inl rfl)
    exact (inv'.wf_of_mem hk).size_eq

/-- Instance of C13 as amended: the set cleared after an insertion, and the set
obtained from it by inserting 7. -/
theorem dir_size_invariant_witness :
    1 ≤ 2 ∧ ReachableC id 2 (clear (insert id 2 (empty_set : ADS_set Nat) 7).1) ∧
      (clear (insert id 2 (empty_set : ADS_set Nat) 7).1).table_size = 0 ∧
      (insert id 2 (clear (insert id 2 (empty_set : ADS_set Nat) 7).1) 7).1.table_size
        = 2 ^ (insert id 2 (clear (insert id 2 (empty_set : ADS_set Nat) 7).1) 7).1.d
          + (insert id 2 (clear (insert id 2 (empty_set : ADS_set Nat) 7).1) 7).1.next_to_split :=
  ⟨by decide, ReachableC.step_clear (ReachableC.step_insert 7 ReachableC.init), by decide,
    (dir_size_invariant id 2 (by decide) _
      (ReachableC.step_clear (ReachableC.step_insert 7 ReachableC.init))).2.2 7⟩

/-- C14. Split-pointer invariant: in every state reachable from the
default-constructed set by insert, erase and clear calls, `next_to_split` is
below `2^d`; and when the insertion of an absent key runs `split()` on the state
`pre`, a split that advances `next_to_split` to `2^d` increments `d` by one and
resets `next_to_split` to 0, and any other split leaves `d` unchanged and
increases `next_to_split` by exactly one. -/
theorem split_pointer_invariant (hash : Key → Nat) (N : Nat) (hN : 1 ≤ N) (s : ADS_set Key)
    (r : ReachableC hash N s) :
    s.next_to_split < 2 ^ s.d ∧
      ∀ (k : Key) (pre : ADS_set Key), pre = (insert_core hash N s k).1 →
        count hash s k = 0 → (insert_core hash N s k).2 = true →
        (insert hash N s k).1 = split hash N pre ∧
          (pre.next_to_split + 1 = 2 ^ pre.d →
            (split hash N pre).d = pre.d + 1 ∧ (split hash N pre).next_to_split = 0) ∧
          (pre.next_to_split + 1 ≠ 2 ^ pre.d →
            (split hash N pre).d = pre.d ∧
              (split hash N pre).next_to_split = pre.next_to_split + 1) := by
  have inv := r.invariant hN
  constructor
  · rcases inv.shape with ⟨-, -, hd, hn⟩ | ⟨-, hlt⟩
    · rw [hd, hn]; decide
    · exact hlt
  · intro k pre hpre habs hsig
    subst hpre
    have hk := (count_zero_iff inv k).mp habs
    obtain ⟨w, hlt, -, -, -⟩ := insert_core_spec hash N hN s k inv hk
    obtain ⟨f1, f2⟩ := split_fields hash N hN _ w hlt
    exact ⟨insert_split_eq inv k hk hsig, f1, f2⟩

/-- Instance of C14: the split caused by inserting 3 after 1 and 2 completes
generation 0, so `d` becomes 1 and `next_to_split` is 0 again. -/
theorem split_pointer_invariant_witness :
    1 ≤ 2 ∧ ReachableC id 2 (insert id 2 (insert id 2 (empty_set : ADS_set Nat) 1).1 2).1 ∧
      (insert id 2 (insert id 2 (empty_set : ADS_set Nat) 1).1 2).1.next_to_split
        < 2 ^ (insert id 2 (insert id 2 (empty_set : ADS_set Nat) 1).1 2).1.d ∧
      (insert id 2 (insert id 2 (insert id 2 (empty_set : ADS_set Nat) 1).1 2).1 3).1.d = 1 :=
  ⟨by decide, ReachableC.step_insert 2 (ReachableC.step_insert 1 ReachableC.init),
    (split_pointer_invariant id 2 (by decide) _
      (ReachableC.step_insert 2 (ReachableC.step_insert 1 ReachableC.init))).1,
    by decide⟩

/-- C15. Bucket capacity invariant, for a capacity of at least one slot: in a
state reachable by insert and erase calls every bucket of every chain holds at
most `N` keys; for every key the slot index written by `insert_` is below `N`
and the buckets stay within `N` after the write; and when an insertion runs
`split()` on the state `pre`, the same holds in every state passed through
while the keys of the split chain are reinserted without splitting. -/
theorem bucket_capacity (hash : Key → Nat) (N : Nat) (hN : 1 ≤ N) (s : ADS_set Key)
    (r : Reachable hash N s) :
    (∀ c ∈ s.table, ∀ b ∈ c, b.length ≤ N) ∧
      (∀ k, (insert_target hash N s k).2.2 < N ∧
        ∀ c ∈ (insert_core hash N s k).1.table, ∀ b ∈ c, b.length ≤ N) ∧
      (∀ (k : Key) (pre : ADS_set Key), pre = (insert_core hash N s k).1 →
        count hash s k = 0 → (insert_core hash N s k).2 = true →
        ∀ l, l <+: (pre.table.getD pre.next_to_split []).flatten →
          (∀ c ∈ (l.foldl (fun acc key => (insert_core hash N acc key).1)
              (split_start pre)).table, ∀ b ∈ c, b.length ≤ N) ∧
            ∀ x, (insert_target hash N
              (l.foldl (fun acc key => (insert_core hash N acc key).1) (split_start pre))
              x).2.2 < N) := by
  have inv := r.inv hN
  refine ⟨?_, ?_, ?_⟩
  · rcases inv.shape with ⟨ht, -, -, -⟩ | ⟨w, -⟩
    · rw [ht]; simp
    · exact w.cap
  · intro k
    exact ⟨inv.slot_lt hN k, (insert_core_wf_inv hash N hN s k inv).cap⟩
  · intro k pre hpre habs _ l _
    subst hpre
    have hk := (count_zero_iff inv k).mp habs
    obtain ⟨w, hlt, -, -, -⟩ := insert_core_spec hash N hN s k inv hk
    have w1 := split_start_wf hash N _ w hlt
    have w2 := (foldl_insert_core hash N hN l _ w1).1
    exact ⟨w2.cap, fun x => w2.target_lt hN x⟩

/-- Instance of C15: the set built from 10, 20, 30, 40, 50 with two slots per
bucket; inserting 2 writes slot 0 of chain 2. -/
theorem bucket_capacity_witness :
    1 ≤ 2 ∧
      Reachable id 2
        (run id 2 [Op.insert 10, Op.insert 20, Op.insert 30, Op.insert 40, Op.insert 50]) ∧
      (∀ c ∈ (run id 2
          [Op.insert 10, Op.insert 20, Op.insert 30, Op.insert 40, Op.insert 50]).table,
        ∀ b ∈ c, b.length ≤ 2) ∧
      (run id 2 [Op.insert 10, Op.insert 20, Op.insert 30, Op.insert 40, Op.insert 50]).table
        = [[[20, 40]], [[]], [[10, 30], [50]]] :=
  ⟨by decide, run_reachable id 2 _,
    (bucket_capacity id 2 (by decide) _ (run_reachable id 2 _)).1, by decide⟩

/-- C16. A split is triggered exactly once per overflow event: in a reachable
state with at least one chain and for an absent key `k`, `split_signal` is
raised exactly when the walk of `insert_` appended an overflow bucket to the
chain of `k`; then the public insert returns the result of one `split()` on the
state `pre` left by the write, `table_size` has grown by exactly 1, and the
reinsertions of that split leave `table_size` alone; without the signal no split
runs and `table_size`, `d` and `next_to_split` are unchanged.  An `insert_`
called with the flag `false` never runs `split()`. -/
theorem split_once_per_overflow (hash : Key → Nat) (N : Nat) (hN : 1 ≤ N) (s : ADS_set Key)
    (r : Reachable hash N s) (hts : s.table_size ≠ 0) (k : Key)
    (habs : count hash s k = 0) (pre : ADS_set Key) (hpre : pre = (insert_core hash N s k).1) :
    ((insert_core hash N s k).2 = true ↔
        (pre.table.getD (h hash s k) []).length = (s.table.getD (h hash s k) []).length + 1) ∧
      ((insert_core hash N s k).2 = true →
        (insert hash N s k).1 = split hash N pre ∧
          (insert hash N s k).1.table_size = s.table_size + 1 ∧
          (rehash_keys hash N (split_start pre) (pre.table.getD pre.next_to_split [])).table_size
            = s.table_size + 1) ∧
      ((insert_core hash N s k).2 = false →
        (insert hash N s k).1 = pre ∧
          (insert hash N s k).1.table_size = s.table_size ∧
          (insert hash N s k).1.d = s.d ∧
          (insert hash N s k).1.next_to_split = s.next_to_split) ∧
      (∀ (t : ADS_set Key) (x : Key), insert_ hash N t x false = (insert_core hash N t x).1) := by
  subst hpre
  have inv := r.inv hN
  have hk := (count_zero_iff inv k).mp habs
  have w : WF hash N s := by
    rcases inv.shape with ⟨-, h0, -, -⟩ | ⟨w, -⟩
    · exact absurd h0 hts
    · exact w
  obtain ⟨w', hlt', -, -, -⟩ := insert_core_spec hash N hN s k inv hk
  have f := insert_core_fields hash N s k hts
  obtain ⟨e1, e2⟩ := insert_core_chain_at hash N s k w
  have hlen := insert_chain_length N k _ (w.chain_at k).1
  refine ⟨?_, ?_, ?_, fun t x => insert_false_eq hash N t x⟩
  · rw [e1, e2, hlen]
    cases (insert_chain N k (s.table.getD (h hash s k) [])).2 <;> simp
  · intro hsig
    have hs := insert_split_eq inv k hk hsig
    refine ⟨hs, ?_, ?_⟩
    · rw [hs, (split_spec hash N hN _ w' hlt').2.2.2.2, f.2.2.1]
    · have w1 := split_start_wf hash N _ w' hlt'
      rw [rehash_keys_eq_foldl, (foldl_insert_core hash N hN _ _ w1).2.2.2.1]
      show (insert_core hash N s k).1.table_size + 1 = s.table_size + 1
      rw [f.2.2.1]
  · intro hsig
    have hs := insert_nosplit_eq inv k hk hsig
    rw [hs]
    exact ⟨rfl, f.2.2.1, f.1, f.2.1⟩

/-- Instance of C16, the scenario of the specification: two slots per bucket,
identity hash; 1 and 2 land in chain 0 without a split, 3 overflows and causes
one split, after which the three keys are found and `size()` is 3. -/
theorem split_once_per_overflow_witness :
    1 ≤ 2 ∧ Reachable id 2 (insert id 2 (insert id 2 (empty_set : ADS_set Nat) 1).1 2).1 ∧
      (insert id 2 (insert id 2 (empty_set : ADS_set Nat) 1).1 2).1.table_size ≠ 0 ∧
      count id (insert id 2 (insert id 2 (empty_set : ADS_set Nat) 1).1 2).1 3 = 0 ∧
      (insert id 2 (empty_set : ADS_set Nat) 1).1.table = [[[1]]] ∧
      (insert id 2 (insert id 2 (empty_set : ADS_set Nat) 1).1 2).1.table = [[[1, 2]]] ∧
      (insert_core id 2 (insert id 2 (insert id 2 (empty_set : ADS_set Nat) 1).1 2).1 3).2
        = true ∧
      (insert id 2 (insert id 2 (insert id 2 (empty_set : ADS_set Nat) 1).1 2).1 3).1.table_size
        = (insert id 2 (insert id 2 (empty_set : ADS_set Nat) 1).1 2).1.table_size + 1 ∧
      [1, 2, 3].map
          (count id (insert id 2 (insert id 2 (insert id 2 (empty_set : ADS_set Nat) 1).1 2).1 3).1)
        = [1, 1, 1] ∧
      size (insert id 2 (insert id 2 (insert id 2 (empty_set : ADS_set Nat) 1).1 2).1 3).1 = 3 :=
  ⟨by decide, Reachable.step_insert 2 (Reachable.step_insert 1 Reachable.init), by decide,
    by decide, by decide, by decide, by decide,
    ((split_once_per_overflow id 2 (by decide) _
      (Reachable.step_insert 2 (Reachable.step_insert 1 Reachable.init)) (by decide) 3
      (by decide) _ rfl).2.1 (by decide)).2.1,
    by decide, by decide⟩

/-- C17. Split redistribution: in a reachable state, when the insertion of an
absent key runs `split()` on the state `pre` with generation `d`, split pointer
`next_to_split` and `table_size = 2^d + next_to_split`, afterwards the chain at
the split pointer holds exactly the keys of the old chain there, over all its
buckets, whose hash modulo `2^(d+1)` is `next_to_split`, the new last chain at
index `2^d + next_to_split` holds exactly those whose hash modulo `2^(d+1)` is
`next_to_split + 2^d`, and every other chain is unchanged. -/
theorem split_redistribution (hash : Key → Nat) (N : Nat) (hN : 1 ≤ N) (s : ADS_set Key)
    (r : Reachable hash N s) (k : Key) (habs : count hash s k = 0)
    (hsig : (insert_core hash N s k).2 = true) (pre : ADS_set Key)
    (hpre : pre = (insert_core hash N s k).1) :
    (insert hash N s k).1 = split hash N pre ∧
      pre.table_size = 2 ^ pre.d + pre.next_to_split ∧
      (split hash N pre).table_size = 2 ^ pre.d + pre.next_to_split + 1 ∧
      ((split hash N pre).table.getD pre.next_to_split []).flatten.Perm
        ((pre.table.getD pre.next_to_split []).flatten.filter
          (fun x => decide (hash x % 2 ^ (pre.d + 1) = pre.next_to_split))) ∧
      ((split hash N pre).table.getD (2 ^ pre.d + pre.next_to_split) []).flatten.Perm
        ((pre.table.getD pre.next_to_split []).flatten.filter
          (fun x => decide (hash x % 2 ^ (pre.d + 1) = pre.next_to_split + 2 ^ pre.d))) ∧
      (∀ i, i ≠ pre.next_to_split → i ≠ 2 ^ pre.d + pre.next_to_split →
        (split hash N pre).table.getD i [] = pre.table.getD i []) := by
  subst hpre
  have inv := r.inv hN
  have hk := (count_zero_iff inv k).mp habs
  obtain ⟨w, hlt, -, -, -⟩ := insert_core_spec hash N hN s k inv hk
  obtain ⟨c1, c2, c3⟩ := split_chains hash N hN _ w hlt
  refine ⟨insert_split_eq inv k hk hsig, w.size_eq, ?_, c1, c2, c3⟩
  rw [(split_spec hash N hN _ w hlt).2.2.2.2, w.size_eq]

/-- Instance of C17: two slots per bucket, identity hash; inserting 50 into the
set holding 10, 20, 30, 40 splits chain 0 of generation 1 into the keys that are
0 modulo 4 and those that are 2 modulo 4. -/
theorem split_redistribution_witness :
    1 ≤ 2 ∧
      Reachable id 2 (run id 2 [Op.insert 10, Op.insert 20, Op.insert 30, Op.insert 40]) ∧
      count id (run id 2 [Op.insert 10, Op.insert 20, Op.insert 30, Op.insert 40]) 50 = 0 ∧
      (insert_core id 2 (run id 2 [Op.insert 10, Op.insert 20, Op.insert 30, Op.insert 40])
        50).2 = true ∧
      (insert_core id 2 (run id 2 [Op.insert 10, Op.insert 20, Op.insert 30, Op.insert 40])
        50).1.table = [[[10, 20], [30, 40], [50]], [[]]] ∧
      (split id 2 (insert_core id 2
        (run id 2 [Op.insert 10, Op.insert 20, Op.insert 30, Op.insert 40]) 50).1).table
        = [[[20, 40]], [[]], [[10, 30], [50]]] ∧
      (insert id 2 (run id 2 [Op.insert 10, Op.insert 20, Op.insert 30, Op.insert 40]) 50).1
        = split id 2 (insert_core id 2
          (run id 2 [Op.insert 10, Op.insert 20, Op.insert 30, Op.insert 40]) 50).1 :=
  ⟨by decide, run_reachable id 2 _, by decide, by decide, by decide, by decide,
    (split_redistribution id 2 (by decide) _ (run_reachable id 2 _) 50 (by decide) (by decide)
      _ rfl).1⟩

/-- Counterexample to C18 as stated: two slots per bucket, identity hash, the
set built from 10, 20, 30, 40, 50 with 30 erased.  Chain 2 is `[10]`, `[50]`;
`insert_` of the absent key 2 writes slot 1 of the head bucket and leaves the
last bucket, which is not full, as it was. -/
theorem insert_tail_counterexample :
    Reachable id 2
        (run id 2 [Op.insert 10, Op.insert 20, Op.insert 30, Op.insert 40, Op.insert 50,
          Op.erase 30]) ∧
      h id (run id 2 [Op.insert 10, Op.insert 20, Op.insert 30, Op.insert 40, Op.insert 50,
          Op.erase 30]) 2 = 2 ∧
      (run id 2 [Op.insert 10, Op.insert 20, Op.insert 30, Op.insert 40, Op.insert 50,
          Op.erase 30]).table.getD 2 [] = [[10], [50]] ∧
      (insert_core id 2
        (run id 2 [Op.insert 10, Op.insert 20, Op.insert 30, Op.insert 40, Op.insert 50,
          Op.erase 30]) 2).1.table.getD 2 [] = [[10, 2], [50]] ∧
      insert_target id 2
        (run id 2 [Op.insert 10, Op.insert 20, Op.insert 30, Op.insert 40, Op.insert 50,
          Op.erase 30]) 2 = (2, 0, 1) ∧
      ¬ ((insert_core id 2
        (run id 2 [Op.insert 10, Op.insert 20, Op.insert 30, Op.insert 40, Op.insert 50,
          Op.erase 30]) 2).1.table.getD 2 [] = [[10], [50, 2]]) :=
  ⟨run_reachable id 2 _, by decide, by decide, by decide, by decide, by decide⟩

/-- C18, amended. In a reachable state and for every key, with `c` the chain at
the address of the key (the fresh chain of one empty bucket when the directory
has no chain yet) and `j` the position of the first bucket of `c`, from the
head, that is not full, `insert_` stores the key in the first free slot of that
bucket; when every bucket of `c` is full, and only then, it appends a new
overflow bucket to `c` and stores the key in its slot 0. -/
theorem insert_first_free (hash : Key → Nat) (N : Nat) (hN : 1 ≤ N) (s : ADS_set Key)
    (r : Reachable hash N s) (k : Key) (c : List (List Key))
    (hc : c = if s.table_size = 0 then [[]] else s.table.getD (h hash s k) [])
    (j : Nat) (hj : j = c.findIdx (fun b => !bucket_isfull N b)) :
    (insert_core hash N s k).1.table.getD (h hash s k) []
        = (if j < c.length then c.set j (c.getD j [] ++ [k]) else c ++ [[k]]) ∧
      ((insert_core hash N s k).2 = true ↔ j = c.length) ∧
      (j = c.length ↔ ∀ b ∈ c, bucket_isfull N b = true) ∧
      insert_target hash N s k = (h hash s k, j, (c.getD j []).length) ∧
      (c.getD j []).length < N := by
  have inv := r.inv hN
  have key : ∀ s1 : ADS_set Key, WF hash N s1 → c = s1.table.getD (h hash s1 k) [] →
      (insert_core hash N s1 k).1.table.getD (h hash s1 k) []
          = (if j < c.length then c.set j (c.getD j [] ++ [k]) else c ++ [[k]]) ∧
        ((insert_core hash N s1 k).2 = true ↔ j = c.length) ∧
        (j = c.length ↔ ∀ b ∈ c, bucket_isfull N b = true) ∧
        insert_target hash N s1 k = (h hash s1 k, j, (c.getD j []).length) ∧
        (c.getD j []).length < N := by
    intro s1 w1 hc1
    obtain ⟨a1, a2, a3, a4⟩ := insert_core_first_free hash N s1 k w1 c hc1 j hj
    refine ⟨a1, a2, a3, a4, ?_⟩
    have := w1.target_lt hN k
    rw [a4] at this
    exact this
  rcases inv.shape with ⟨-, h0, hd, hn⟩ | ⟨w, -⟩
  · rw [if_pos h0] at hc
    have w1 := first_chain_wf hash N s hd hn
    have hh : h hash { s with table := [[[]]], table_size := 1 } k = h hash s k := rfl
    have h00 : h hash s k = 0 := by
      have := h_lt hash _ k w1.size_eq
      rw [hh] at this
      simp only at this
      omega
    rw [insert_core_of_zero hash N s k h0, insert_target_of_zero hash N s k h0, ← hh]
    refine key _ w1 ?_
    rw [hh, h00, hc]
    rfl
  · rw [if_neg w.table_size_ne] at hc
    exact key s w hc

/-- Instance of C18 as amended: in the state of the counterexample the first
bucket of chain 2 that is not full is the head, and key 2 goes to its slot 1. -/
theorem insert_first_free_witness :
    1 ≤ 2 ∧
      Reachable id 2
        (run id 2 [Op.insert 10, Op.insert 20, Op.insert 30, Op.insert 40, Op.insert 50,
          Op.erase 30]) ∧
      insert_target id 2
        (run id 2 [Op.insert 10, Op.insert 20, Op.insert 30, Op.insert 40, Op.insert 50,
          Op.erase 30]) 2
        = (h id (run id 2 [Op.insert 10, Op.insert 20, Op.insert 30, Op.insert 40,
            Op.insert 50, Op.erase 30]) 2,
          List.findIdx (fun b => !bucket_isfull 2 b) [[10], [50]],
          (List.getD [[10], [50]]
            (List.findIdx (fun b => !bucket_isfull 2 b) [[10], [50]]) []).length) :=
  ⟨by decide, run_reachable id 2 _,
    (insert_first_free id 2 (by decide) _ (run_reachable id 2 _) 2 [[10], [50]] (by decide)
      _ rfl).2.2.2.1⟩

/-- C19. Erase closes the gap and touches nothing else: in a reachable state and
for a present key `k`, found by `find_` in slot `x` of the bucket at position
`m` of the chain at `h(k)`, after `erase(k)` that bucket holds the slots before
`x` followed by the slots after `x`, every other bucket is unchanged, every
chain has as many buckets as before, and `table_size`, `d` and `next_to_split`
are unchanged. -/
theorem erase_closes_gap (hash : Key → Nat) (N : Nat) (hN : 1 ≤ N) (s : ADS_set Key)
    (r : Reachable hash N s) (k : Key) (hk : count hash s k = 1) :
    ∃ m x, find_ hash s k = (some (h hash s k, m), some (h hash s k, m, x)) ∧
      ((s.table.getD (h hash s k) []).getD m [])[x]? = some k ∧
      ((erase hash s k).1.table.getD (h hash s k) []).getD m []
        = ((s.table.getD (h hash s k) []).getD m []).take x
          ++ ((s.table.getD (h hash s k) []).getD m []).drop (x + 1) ∧
      (∀ i j, (i, j) ≠ (h hash s k, m) →
        ((erase hash s k).1.table.getD i []).getD j [] = (s.table.getD i []).getD j []) ∧
      (∀ i, ((erase hash s k).1.table.getD i []).length = (s.table.getD i []).length) ∧
      (erase hash s k).1.table.length = s.table.length ∧
      (erase hash s k).1.table_size = s.table_size ∧
      (erase hash s k).1.d = s.d ∧
      (erase hash s k).1.next_to_split = s.next_to_split := by
  have inv := r.inv hN
  have hmem := (count_one_iff inv k).mp hk
  have w := inv.wf_of_mem hmem
  have hi := w.h_lt_length k
  obtain ⟨m, x, hm, hx, hf, he⟩ := erase_present hash N s k inv hmem
  refine ⟨m, x, hf, hx, ?_, ?_, ?_, ?_, ?_, ?_, ?_⟩
  · rw [he]
    simp only
    rw [getD_set_eq _ _ _ _ hi, getD_set_eq _ _ _ _ hm, List.eraseIdx_eq_take_drop_succ]
  · intro i j hij
    rw [he]
    simp only
    by_cases h1 : h hash s k = i
    · subst h1
      have h2 : m ≠ j := fun e => hij (by rw [e])
      rw [getD_set_eq _ _ _ _ hi, getD_set_ne _ _ _ _ _ h2]
    · rw [getD_set_ne _ _ _ _ _ h1]
  · intro i
    rw [he]
    simp only
    by_cases h1 : h hash s k = i
    · subst h1
      rw [getD_set_eq _ _ _ _ hi, List.length_set]
    · rw [getD_set_ne _ _ _ _ _ h1]
  · rw [he]; simp
  · rw [he]
  · rw [he]
  · rw [he]

/-- Instance of C19: erasing 10 from the set built from 10, 20, 30, 40, 50 (two
slots per bucket, identity hash) turns the bucket `[10, 30]` into `[30]`. -/
theorem erase_closes_gap_witness :
    1 ≤ 2 ∧
      Reachable id 2
        (run id 2 [Op.insert 10, Op.insert 20, Op.insert 30, Op.insert 40, Op.insert 50]) ∧
      count id
        (run id 2 [Op.insert 10, Op.insert 20, Op.insert 30, Op.insert 40, Op.insert 50]) 10
        = 1 ∧
      (erase id
        (run id 2 [Op.insert 10, Op.insert 20, Op.insert 30, Op.insert 40, Op.insert 50])
        10).1.table = [[[20, 40]], [[]], [[30], [50]]] ∧
      (erase id
        (run id 2 [Op.insert 10, Op.insert 20, Op.insert 30, Op.insert 40, Op.insert 50])
        10).1.table_size
        = (run id 2
          [Op.insert 10, Op.insert 20, Op.insert 30, Op.insert 40, Op.insert 50]).table_size :=
  ⟨by decide, run_reachable id 2 _, by decide, by decide,
    (erase_closes_gap id 2 (by decide) _ (run_reachable id 2 _) 10 (by decide)).elim
      (fun _ hm => hm.elim (fun _ hx => hx.2.2.2.2.2.2.1))⟩

/-- C20. Placement invariant: in a reachable state every key stored in an
occupied slot of a bucket of the chain at directory index `i` has `h(key) = i`
under the current `d` and `next_to_split`; hence `find_`, which searches only
the chain at `h(key)`, finds every stored key, in a slot of that chain that
holds it. -/
theorem placement_invariant (hash : Key → Nat) (N : Nat) (hN : 1 ≤ N) (s : ADS_set Key)
    (r : Reachable hash N s) :
    (∀ i, ∀ b ∈ s.table.getD i [], ∀ k ∈ b, h hash s k = i) ∧
      (∀ c ∈ s.table, ∀ b ∈ c, ∀ k ∈ b,
        ∃ m x, find_ hash s k = (some (h hash s k, m), some (h hash s k, m, x)) ∧
          ((s.table.getD (h hash s k) []).getD m [])[x]? = some k) := by
  have inv := r.inv hN
  constructor
  · intro i b hb k hk
    rcases inv.shape with ⟨ht, -, -, -⟩ | ⟨w, -⟩
    · rw [ht] at hb; simp at hb
    · exact w.placed i k (List.mem_flatten.mpr ⟨b, hb, hk⟩)
  · intro c hc b hb k hk
    have hmem : k ∈ keys s :=
      List.mem_flatten.mpr ⟨b, List.mem_flatten.mpr ⟨c, hc, hb⟩, hk⟩
    obtain ⟨m, x, e, -, hx⟩ := find__present (inv.wf_of_mem hmem) k hmem
    exact ⟨m, x, e, hx⟩

/-- Instance of C20: in the set built from 10, 20, 30, 40, 50 (two slots per
bucket, identity hash) the keys of chain 2 are 10, 30 and 50, all with
address 2. -/
theorem placement_invariant_witness :
    1 ≤ 2 ∧
      Reachable id 2
        (run id 2 [Op.insert 10, Op.insert 20, Op.insert 30, Op.insert 40, Op.insert 50]) ∧
      (∀ b ∈ (run id 2
          [Op.insert 10, Op.insert 20, Op.insert 30, Op.insert 40, Op.insert 50]).table.getD 2 [],
        ∀ k ∈ b,
          h id (run id 2
            [Op.insert 10, Op.insert 20, Op.insert 30, Op.insert 40, Op.insert 50]) k = 2) ∧
      (run id 2
        [Op.insert 10, Op.insert 20, Op.insert 30, Op.insert 40, Op.insert 50]).table.getD 2 []
        = [[10, 30], [50]] :=
  ⟨by decide, run_reachable id 2 _,
    (placement_invariant id 2 (by decide) _ (run_reachable id 2 _)).1 2, by decide⟩

end LinearHashing
